import Mathlib

/-!
Verification development for the PyAlgosim trading-account module (PyBank.py).

The Python module is embedded shallowly:
* all numeric quantities (funds, prices, share counts, fees) are modelled as `ℚ`
  (exact arithmetic; the spec describes decimal currency amounts);
* Python dictionaries become association lists over `String` keys, looked up by
  first occurrence (a genuine dict never has duplicate keys; where a proof needs
  key uniqueness it is carried as an explicit `Nodup` hypothesis or invariant);
* Python exceptions become `Except` values.  Every account operation returns
  `Except (PyErr × Account) Account`; the error payload carries the account
  state at the moment the exception was raised (the source prints a diagnostic
  and terminates the process on the caught ones, and lets `KeyError` escape
  uncaught from `trailing_stop`).
-/

/-- Error kinds of the source module.  The first five correspond to the named
error kinds of the spec (section 7); `keyError` is an uncaught Python
`KeyError` escaping to the caller; `zeroDivision` is a Python
`ZeroDivisionError`. -/
inductive PyErr where
  | insufficientFunds
  | unknownTicker
  | notOwned
  | oversell
  | orderExceedsHoldings
  | keyError
  | zeroDivision
deriving DecidableEq, Repr

/-- Trailing-stop order data, from the nested dict
`{"percentage": …, "points": …, "highest": …, "quantity": …}`. -/
structure TrailingStop where
  percentage : Bool
  points : ℚ
  highest : ℚ
  quantity : ℚ
deriving DecidableEq, Repr

/-- One holding, from the dict
`{"quantity": …, "bought_p": …, "current_p": …, "options": …}`.
The `options` dict only ever carries the `"trailing_stop"` key, so it is
modelled as an `Option TrailingStop`. -/
structure Holding where
  quantity : ℚ
  bought_p : ℚ
  current_p : ℚ
  options : Option TrailingStop
deriving DecidableEq, Repr

/-- The account state, from `Account.__init__`. -/
structure Account where
  funds : ℚ
  initial_funds : ℚ
  transactions : ℕ
  TRANSACTION_FEE : ℚ
  latest_prices : List (String × ℚ)
  original_prices : List (String × ℚ)
  stocks_owned : List (String × Holding)
deriving DecidableEq, Repr

/-- Dictionary lookup on an association list (first occurrence wins, as in a
Python dict, which never holds duplicate keys). -/
def lookupA {α : Type} : List (String × α) → String → Option α
  | [], _ => none
  | (k, v) :: rest, key => if key = k then some v else lookupA rest key

/-- Dictionary write `d[key] = v`: replaces the first binding of `key`, or
appends a new binding. -/
def setA {α : Type} : List (String × α) → String → α → List (String × α)
  | [], key, v => [(key, v)]
  | (k, w) :: rest, key, v =>
    if key = k then (k, v) :: rest else (k, w) :: setA rest key v

/-- Dictionary deletion `del d[key]`: removes the first binding of `key`. -/
def eraseA {α : Type} : List (String × α) → String → List (String × α)
  | [], _ => []
  | (k, w) :: rest, key => if key = k then rest else (k, w) :: eraseA rest key

/-- Quantity argument of `sell_stock`: either a number or the literal
sentinel `"all"`. -/
inductive SQty where
  | all
  | num (q : ℚ)
deriving DecidableEq, Repr

/-- Source `Account.__init__(funds, transaction_fee)`. -/
def Account.init (funds : ℚ) (transaction_fee : ℚ) : Account :=
  { funds := funds
    initial_funds := funds
    transactions := 0
    TRANSACTION_FEE := transaction_fee
    latest_prices := []
    original_prices := []
    stocks_owned := [] }

/-- Source `Account.sell_stock(ticker, quantity)` (PyBank.py lines 134-167).
A missing ticker raises `KeyError`, caught and reported as "selling stock
which you don't own" (`notOwned`); overselling raises `ValueError`
(`oversell`); both terminate the process in the source.  On success the
proceeds minus the fee are credited, the quantity decremented, the entry
deleted when the quantity reaches zero, and the transaction count bumped. -/
def Account.sell_stock (s : Account) (ticker : String) (quantity : SQty) :
    Except (PyErr × Account) Account :=
  match lookupA s.stocks_owned ticker with
  | none => .error (.notOwned, s)
  | some h =>
    let qty : ℚ :=
      match quantity with
      | .all => h.quantity
      | .num n => n
    if 0 ≤ h.quantity - qty then
      let owned : List (String × Holding) :=
        if h.quantity - qty = 0 then eraseA s.stocks_owned ticker
        else setA s.stocks_owned ticker { h with quantity := h.quantity - qty }
      .ok { s with
              funds := s.funds + (qty * h.current_p - s.TRANSACTION_FEE)
              stocks_owned := owned
              transactions := s.transactions + 1 }
    else .error (.oversell, s)

/-- Source `Account.buy_stock(ticker, quantity)` (PyBank.py lines 97-132).
An unknown ticker raises `KeyError` from the `latest_prices` lookup, caught
by the bare `except` which prints the stock-does-not-exist diagnostic and
exits (`unknownTicker`); a failed funds check raises `ValueError`
(`insufficientFunds`).  On the funds-check pass the cost plus fee is debited
and the transaction count bumped (lines 102-103) BEFORE the holding is
touched; the merge branch then divides by `old_qty + quantity` (line 113),
and when that sum is zero Python raises `ZeroDivisionError`, which the same
bare `except` catches with the same stock-does-not-exist diagnostic — so
this exit is also modelled as `unknownTicker`, carrying the state at the
catch: funds debited and transaction count bumped, holdings unchanged
(lines 116-117 were not reached).  Otherwise the holding is created
(cost = price) or merged with the volume-weighted average bought price. -/
def Account.buy_stock (s : Account) (ticker : String) (quantity : ℚ) :
    Except (PyErr × Account) Account :=
  match lookupA s.latest_prices ticker with
  | none => .error (.unknownTicker, s)
  | some price =>
    if 0 ≤ s.funds - (quantity * price + s.TRANSACTION_FEE) then
      match lookupA s.stocks_owned ticker with
      | none =>
        .ok { s with
                funds := s.funds - (quantity * price + s.TRANSACTION_FEE)
                transactions := s.transactions + 1
                stocks_owned :=
                  setA s.stocks_owned ticker
                    { quantity := quantity, bought_p := price, current_p := price,
                      options := none } }
      | some h =>
        let old_amount := h.quantity * h.bought_p
        let new_amount := quantity * price
        if h.quantity + quantity = 0 then
          .error (.unknownTicker,
            { s with
                funds := s.funds - (quantity * price + s.TRANSACTION_FEE)
                transactions := s.transactions + 1 })
        else
          let average_bought_p := (old_amount + new_amount) / (h.quantity + quantity)
          .ok { s with
                  funds := s.funds - (quantity * price + s.TRANSACTION_FEE)
                  transactions := s.transactions + 1
                  stocks_owned :=
                    setA s.stocks_owned ticker
                      { h with quantity := h.quantity + quantity,
                               bought_p := average_bought_p } }
    else .error (.insufficientFunds, s)

/-- Source helper `update_trailing_stop(account, ticker)` (PyBank.py lines
13-35).  When the watermark strictly exceeds the current price the bottom
limit is computed and, if reached, the order's quantity is sold through
`sell_stock` and the order deleted (when the holding survived the sell);
otherwise the watermark is raised to the current price. -/
def update_trailing_stop (account : Account) (ticker : String) :
    Except (PyErr × Account) Account :=
  match lookupA account.stocks_owned ticker with
  | none => .error (.keyError, account)
  | some h =>
    match h.options with
    | none => .error (.keyError, account)
    | some order =>
      let current_price := h.current_p
      if order.highest > current_price then
        let bottom_limit :=
          if order.percentage then order.highest - order.highest * order.points
          else order.highest - order.points
        if current_price ≤ bottom_limit then
          match account.sell_stock ticker (.num order.quantity) with
          | .error e => .error e
          | .ok s₁ =>
            match lookupA s₁.stocks_owned ticker with
            | some h₁ =>
              .ok { s₁ with
                      stocks_owned :=
                        setA s₁.stocks_owned ticker { h₁ with options := none } }
            | none => .ok s₁
        else .ok account
      else
        .ok { account with
                stocks_owned :=
                  setA account.stocks_owned ticker
                    { h with options := some { order with highest := current_price } } }

/-- The `for ticker, info in self.stocks_owned.items()` loop of
`Account.update`.  `items()` takes a snapshot list in Python 2, so the loop
runs over the entries present when the loop started while reading and writing
the live dict. -/
def updateLoop : List (String × Holding) → Account → Except (PyErr × Account) Account
  | [], s => .ok s
  | (ticker, _) :: rest, s =>
    match lookupA s.latest_prices ticker with
    | none => updateLoop rest s
    | some p =>
      match lookupA s.stocks_owned ticker with
      | none => .error (.keyError, s)
      | some h =>
        let s₁ : Account :=
          { s with stocks_owned := setA s.stocks_owned ticker { h with current_p := p } }
        if h.options.isSome then
          match update_trailing_stop s₁ ticker with
          | .error e => .error e
          | .ok s₂ => updateLoop rest s₂
        else updateLoop rest s₁

/-- Source `Account.update(latest_prices, ticker)` (PyBank.py lines 75-94).
If the ticker argument has no original price yet, its entry from the snapshot
is recorded (a `KeyError` escapes when the snapshot lacks it); the
latest-price table is replaced wholesale; then every held ticker present in
the new table gets its current price refreshed and its trailing stop, if any,
evaluated. -/
def Account.update (s : Account) (latest_prices : List (String × ℚ)) (ticker : String) :
    Except (PyErr × Account) Account :=
  match (match lookupA s.original_prices ticker with
         | some _ => some s.original_prices
         | none =>
           match lookupA latest_prices ticker with
           | some p => some (setA s.original_prices ticker p)
           | none => none) with
  | none => .error (.keyError, s)
  | some orig =>
    let s₁ : Account := { s with original_prices := orig, latest_prices := latest_prices }
    updateLoop s₁.stocks_owned s₁

/-- Source `Account.trailing_stop(ticker, quantity, points, percentage)`
(PyBank.py lines 169-216).  The fee-affordability check runs first; an unheld
ticker then raises an uncaught `KeyError`; a fresh order is created with the
holding's current price as watermark, or an existing one is merged (quantity
added, points overwritten); an order quantity exceeding the held quantity
raises `ValueError` (`orderExceedsHoldings`) after the merge already
happened; finally a percentage distance is converted to a fraction. -/
def Account.trailing_stop (s : Account) (ticker : String) (quantity : ℚ)
    (points : ℚ) (percentage : Bool) : Except (PyErr × Account) Account :=
  if 0 ≤ s.funds - s.TRANSACTION_FEE then
    match lookupA s.stocks_owned ticker with
    | none => .error (.keyError, s)
    | some h =>
      let order : TrailingStop :=
        match h.options with
        | none =>
          { percentage := percentage, points := points, highest := h.current_p,
            quantity := quantity }
        | some order₀ =>
          { order₀ with quantity := order₀.quantity + quantity, points := points }
      let s₁ : Account :=
        { s with stocks_owned := setA s.stocks_owned ticker { h with options := some order } }
      if order.quantity > h.quantity then .error (.orderExceedsHoldings, s₁)
      else if percentage then
        .ok { s₁ with
                stocks_owned :=
                  setA s₁.stocks_owned ticker
                    { h with options := some { order with points := points / 100 } } }
      else .ok s₁
  else .error (.insufficientFunds, s)

/-- The loop of `Account.sell_all`, iterating over a snapshot of the holdings
while reading and deleting from the live dict. -/
def sellAllLoop : List (String × Holding) → Account → Except (PyErr × Account) Account
  | [], s => .ok s
  | (ticker, _) :: rest, s =>
    match lookupA s.stocks_owned ticker with
    | none => .error (.keyError, s)
    | some h =>
      sellAllLoop rest
        { s with
            funds := s.funds + (h.quantity * h.current_p - s.TRANSACTION_FEE)
            transactions := s.transactions + 1
            stocks_owned := eraseA s.stocks_owned ticker }

/-- Source `Account.sell_all()` (PyBank.py lines 218-225): liquidates every
holding at its current price, charging the fee per ticker, with no funds
check. -/
def Account.sell_all (s : Account) : Except (PyErr × Account) Account :=
  sellAllLoop s.stocks_owned s

/-- Source `Account.value()` (PyBank.py lines 277-285). -/
def Account.value (s : Account) : ℚ :=
  s.stocks_owned.foldl (fun total_value x => total_value + x.2.quantity * x.2.current_p) 0

/-- The numeric figures computed by `Account.report` before formatting. -/
structure ReportFigures where
  account_worth : ℚ
  profit : ℚ
  profit_percentage : ℚ
  market_return : ℚ
  transactions : ℕ
deriving DecidableEq, Repr

/-- The market-return accumulation loop of `report`: sums the original prices
and the price moves, failing with `KeyError` when a recorded ticker is absent
from the latest-price table. -/
def marketTotals : List (String × ℚ) → List (String × ℚ) → Option (ℚ × ℚ)
  | [], _ => some (0, 0)
  | (stock, price) :: rest, latest =>
    match lookupA latest stock with
    | none => none
    | some lp =>
      match marketTotals rest latest with
      | none => none
      | some (tp, tr) => some (tp + price, tr + (lp - price))

/-- Source `Account.report(verbose)` (PyBank.py lines 227-273), reduced to the
numbers it computes: net worth, profit, profit percentage, average market
return, transaction count.  Division by a zero `initial_funds` or a zero
summed original price raises `ZeroDivisionError`; a recorded ticker missing
from `latest_prices` raises `KeyError`.  The function reads the account and
mutates nothing. -/
def Account.report (s : Account) : Except PyErr ReportFigures :=
  let account_worth := s.funds + s.value
  let profit := account_worth - s.initial_funds
  if s.initial_funds = 0 then .error .zeroDivision
  else
    let profit_percentage := profit / s.initial_funds
    match marketTotals s.original_prices s.latest_prices with
    | none => .error .keyError
    | some (total_price, total_return) =>
      if total_price = 0 then .error .zeroDivision
      else
        .ok { account_worth := account_worth
              profit := profit
              profit_percentage := profit_percentage
              market_return := total_return / total_price
              transactions := s.transactions }

/-- One call of the account's public operation set. -/
inductive Op where
  | update (lp : List (String × ℚ)) (tk : String)
  | buy (t : String) (q : ℚ)
  | sell (t : String) (q : SQty)
  | tstop (t : String) (q : ℚ) (pts : ℚ) (pct : Bool)
  | sellAll
deriving DecidableEq, Repr

/-- Dispatch one operation. -/
def applyOp (s : Account) : Op → Except (PyErr × Account) Account
  | .update lp tk => s.update lp tk
  | .buy t q => s.buy_stock t q
  | .sell t q => s.sell_stock t q
  | .tstop t q pts pct => s.trailing_stop t q pts pct
  | .sellAll => s.sell_all

/-- Run a sequence of operations; any raised error terminates the run (the
source terminates the whole process), so reachable states are exactly the
`some` results. -/
def runOps : Account → List Op → Option Account
  | s, [] => some s
  | s, op :: rest =>
    match applyOp s op with
    | .ok s₁ => runOps s₁ rest
    | .error _ => none

/-- The keys of the holdings dict are distinct, as they are in a Python dict. -/
def Wf (s : Account) : Prop := (s.stocks_owned.map Prod.fst).Nodup

/-- Recognises the price-update operation, for claims quantified over
sequences of update calls. -/
def Op.isUpdate : Op → Bool
  | .update _ _ => true
  | _ => false

/-- Recognises operations that are not buys with a non-positive quantity. -/
def posBuy : Op → Bool
  | .buy _ q => decide (0 < q)
  | _ => true

/-- A sequence of fills of one ticker, each executed by publishing the fill
price for that ticker and then buying the fill quantity at it. -/
def fillOps (t : String) (fills : List (ℚ × ℚ)) : List Op :=
  fills.flatMap (fun qp => [Op.update [(t, qp.2)] t, Op.buy t qp.1])

/-- Per the words of claim C7: the price carried by the first update whose
price snapshot includes the given ticker. -/
def firstSnapshotOriginal : List Op → String → Option ℚ
  | [], _ => none
  | Op.update lp _ :: rest, t =>
    match lookupA lp t with
    | some p => some p
    | none => firstSnapshotOriginal rest t
  | _ :: rest, t => firstSnapshotOriginal rest t

/-- The price recorded by the first update called with the given ticker as its
ticker argument — the value `original_prices` actually receives. -/
def firstArgOriginal : List Op → String → Option ℚ
  | [], _ => none
  | Op.update lp tk :: rest, t =>
    if tk = t then lookupA lp t else firstArgOriginal rest t
  | _ :: rest, t => firstArgOriginal rest t

/-- Concrete account used to witness the buy error characterisation. -/
def accC5 : Account :=
  { funds := 10, initial_funds := 10, transactions := 0, TRANSACTION_FEE := 1,
    latest_prices := [("A", 5)], original_prices := [("A", 5)], stocks_owned := [] }

/-- State reached from a fresh 1000/1 account by
[update {A:5} "A", buy "A" 0]: ticker "A" priced at 5 and held with
quantity 0 — the configuration that makes the merge's divisor zero. -/
def accC5z : Account :=
  { funds := 999, initial_funds := 1000, transactions := 1, TRANSACTION_FEE := 1,
    latest_prices := [("A", 5)], original_prices := [("A", 5)],
    stocks_owned := [("A", Holding.mk 0 5 5 none)] }

/-- State carried at the bare-except exit of `accC5z.buy_stock "A" 0`: funds
already debited by cost plus fee and the transaction count already bumped
(PyBank.py lines 102-103), holdings untouched. -/
def accC5zExit : Account :=
  { accC5z with funds := 998, transactions := 2 }

/-- Concrete account used to witness the report consistency claim. -/
def accC9 : Account :=
  { funds := 100, initial_funds := 100, transactions := 0, TRANSACTION_FEE := 1,
    latest_prices := [("A", 5)], original_prices := [("A", 5)], stocks_owned := [] }

/-- Entry preservation along one account transition: every holding afterwards
descends from a holding of the same ticker before, with the bought price kept,
positivity of the quantity kept, and any surviving trailing-stop order's
watermark not decreased. -/
def EntryStep (a b : Account) : Prop :=
  ∀ t' h', lookupA b.stocks_owned t' = some h' →
    ∃ h₀, lookupA a.stocks_owned t' = some h₀ ∧
      h'.bought_p = h₀.bought_p ∧
      (0 < h₀.quantity → 0 < h'.quantity) ∧
      (∀ ord', h'.options = some ord' →
        ∃ ord, h₀.options = some ord ∧ ord.highest ≤ ord'.highest)

/-- Every holding entry has a strictly positive quantity. -/
def PosInv (s : Account) : Prop :=
  ∀ t h, lookupA s.stocks_owned t = some h → 0 < h.quantity

/-- Every held ticker that has a latest price has its current price equal to
that latest price. -/
def SyncInv (s : Account) : Prop :=
  ∀ t p h, lookupA s.latest_prices t = some p →
    lookupA s.stocks_owned t = some h → h.current_p = p

theorem lookupA_setA_self {α : Type} (l : List (String × α)) (k : String) (v : α) :
    lookupA (setA l k v) k = some v := by
  induction l with
  | nil => simp [setA, lookupA]
  | cons hd tl ih =>
    obtain ⟨k₀, w⟩ := hd
    by_cases h : k = k₀
    · subst h; simp [setA, lookupA]
    · simp [setA, lookupA, h, ih]

theorem lookupA_setA_ne {α : Type} (l : List (String × α)) (k k' : String) (v : α)
    (h : k' ≠ k) : lookupA (setA l k v) k' = lookupA l k' := by
  induction l with
  | nil => simp [setA, lookupA, h]
  | cons hd tl ih =>
    obtain ⟨k₀, w⟩ := hd
    by_cases hk : k = k₀
    · subst hk; simp [setA, lookupA, h]
    · by_cases hk' : k' = k₀
      · subst hk'; simp [setA, lookupA, hk]
      · simp [setA, lookupA, hk, hk', ih]

theorem lookupA_eraseA_ne {α : Type} (l : List (String × α)) (k k' : String)
    (h : k' ≠ k) : lookupA (eraseA l k) k' = lookupA l k' := by
  induction l with
  | nil => simp [eraseA]
  | cons hd tl ih =>
    obtain ⟨k₀, w⟩ := hd
    by_cases hk : k = k₀
    · subst hk; simp [eraseA, lookupA, h]
    · by_cases hk' : k' = k₀
      · subst hk'; simp [eraseA, lookupA, hk]
      · simp [eraseA, lookupA, hk, hk', ih]

theorem mem_keys_of_lookupA {α : Type} {l : List (String × α)} {k : String} {v : α}
    (h : lookupA l k = some v) : k ∈ l.map Prod.fst := by
  induction l with
  | nil => simp [lookupA] at h
  | cons hd tl ih =>
    obtain ⟨k₀, w⟩ := hd
    by_cases hk : k = k₀
    · subst hk; simp
    · simp [lookupA, hk] at h
      simp [hk, ih h]

theorem lookupA_eq_none_of_not_mem {α : Type} {l : List (String × α)} {k : String}
    (h : k ∉ l.map Prod.fst) : lookupA l k = none := by
  induction l with
  | nil => simp [lookupA]
  | cons hd tl ih =>
    obtain ⟨k₀, w⟩ := hd
    rw [List.map_cons, List.mem_cons] at h
    push_neg at h
    simp [lookupA, h.1, ih h.2]

theorem lookupA_eraseA_self {α : Type} {l : List (String × α)} {k : String}
    (h : (l.map Prod.fst).Nodup) : lookupA (eraseA l k) k = none := by
  induction l with
  | nil => simp [eraseA, lookupA]
  | cons hd tl ih =>
    obtain ⟨k₀, w⟩ := hd
    rw [List.map_cons, List.nodup_cons] at h
    by_cases hk : k = k₀
    · subst hk; simp [eraseA, lookupA_eq_none_of_not_mem h.1]
    · simp [eraseA, lookupA, hk, ih h.2]

theorem setA_eq_of_lookupA {α : Type} {l : List (String × α)} {k : String} {v : α}
    (h : lookupA l k = some v) : setA l k v = l := by
  induction l with
  | nil => simp [lookupA] at h
  | cons hd tl ih =>
    obtain ⟨k₀, w⟩ := hd
    by_cases hk : k = k₀
    · subst hk
      simp [lookupA] at h
      simp [setA, h]
    · simp [lookupA, hk] at h
      simp [setA, hk, ih h]

theorem mem_keys_setA {α : Type} {l : List (String × α)} {k k' : String} {v : α}
    (h : k' ∈ (setA l k v).map Prod.fst) : k' ∈ l.map Prod.fst ∨ k' = k := by
  induction l with
  | nil =>
    rw [setA, List.map_cons, List.mem_cons] at h
    rcases h with h | h
    · exact Or.inr h
    · simp at h
  | cons hd tl ih =>
    obtain ⟨k₀, w⟩ := hd
    by_cases hk : k = k₀
    · subst hk
      rw [setA, if_pos rfl, List.map_cons, List.mem_cons] at h
      rw [List.map_cons, List.mem_cons]
      exact Or.inl h
    · rw [setA, if_neg hk, List.map_cons, List.mem_cons] at h
      rw [List.map_cons, List.mem_cons]
      rcases h with h | h
      · exact Or.inl (Or.inl h)
      · rcases ih h with h' | h'
        · exact Or.inl (Or.inr h')
        · exact Or.inr h'

theorem nodup_keys_setA {α : Type} {l : List (String × α)} {k : String} {v : α}
    (h : (l.map Prod.fst).Nodup) : ((setA l k v).map Prod.fst).Nodup := by
  induction l with
  | nil => simp [setA]
  | cons hd tl ih =>
    obtain ⟨k₀, w⟩ := hd
    rw [List.map_cons, List.nodup_cons] at h
    by_cases hk : k = k₀
    · subst hk
      rw [setA, if_pos rfl, List.map_cons, List.nodup_cons]
      exact h
    · rw [setA, if_neg hk, List.map_cons, List.nodup_cons]
      refine ⟨fun hmem => ?_, ih h.2⟩
      rcases mem_keys_setA hmem with h' | h'
      · exact h.1 h'
      · exact hk h'.symm

theorem mem_keys_eraseA {α : Type} {l : List (String × α)} {k k' : String}
    (h : k' ∈ (eraseA l k).map Prod.fst) : k' ∈ l.map Prod.fst := by
  induction l with
  | nil => simp [eraseA] at h
  | cons hd tl ih =>
    obtain ⟨k₀, w⟩ := hd
    by_cases hk : k = k₀
    · subst hk
      rw [eraseA, if_pos rfl] at h
      rw [List.map_cons, List.mem_cons]
      exact Or.inr h
    · rw [eraseA, if_neg hk, List.map_cons, List.mem_cons] at h
      rw [List.map_cons, List.mem_cons]
      rcases h with h | h
      · exact Or.inl h
      · exact Or.inr (ih h)

theorem nodup_keys_eraseA {α : Type} {l : List (String × α)} {k : String}
    (h : (l.map Prod.fst).Nodup) : ((eraseA l k).map Prod.fst).Nodup := by
  induction l with
  | nil => simp [eraseA]
  | cons hd tl ih =>
    obtain ⟨k₀, w⟩ := hd
    rw [List.map_cons, List.nodup_cons] at h
    by_cases hk : k = k₀
    · subst hk
      rw [eraseA, if_pos rfl]
      exact h.2
    · rw [eraseA, if_neg hk, List.map_cons, List.nodup_cons]
      exact ⟨fun hmem => h.1 (mem_keys_eraseA hmem), ih h.2⟩

theorem foldl_add_sum (g : (String × Holding) → ℚ) :
    ∀ (l : List (String × Holding)) (a : ℚ),
      l.foldl (fun t x => t + g x) a = a + (l.map g).sum := by
  intro l
  induction l with
  | nil => simp
  | cons hd tl ih => intro a; simp [ih, add_assoc]

theorem value_eq_sum (s : Account) :
    s.value = (s.stocks_owned.map (fun x => x.2.quantity * x.2.current_p)).sum := by
  unfold Account.value
  rw [foldl_add_sum]
  ring

theorem buy_stock_spec (s : Account) (t : String) (q p : ℚ)
    (hl : lookupA s.latest_prices t = some p) :
    s.buy_stock t q =
      if 0 ≤ s.funds - (q * p + s.TRANSACTION_FEE) then
        match lookupA s.stocks_owned t with
        | none =>
          .ok { s with
            funds := s.funds - (q * p + s.TRANSACTION_FEE)
            transactions := s.transactions + 1
            stocks_owned :=
              setA s.stocks_owned t
                { quantity := q, bought_p := p, current_p := p, options := none } }
        | some h₀ =>
          if h₀.quantity + q = 0 then
            .error (.unknownTicker,
              { s with
                  funds := s.funds - (q * p + s.TRANSACTION_FEE)
                  transactions := s.transactions + 1 })
          else
            .ok { s with
              funds := s.funds - (q * p + s.TRANSACTION_FEE)
              transactions := s.transactions + 1
              stocks_owned :=
                setA s.stocks_owned t
                  { h₀ with
                      quantity := h₀.quantity + q
                      bought_p := (h₀.quantity * h₀.bought_p + q * p) / (h₀.quantity + q) } }
      else .error (.insufficientFunds, s) := by
  unfold Account.buy_stock
  rw [hl]

/-- C10: for every account with funds at least the fee and every ticker not
currently held, `trailing_stop` raises an unhandled `KeyError` from indexing
the holdings dict — not one of the five named error kinds — and the account
state at the raise is the unchanged input state. -/
theorem c10_trailing_stop_unheld_keyError (s : Account) (t : String) (q pts : ℚ)
    (pct : Bool) (hfee : s.TRANSACTION_FEE ≤ s.funds)
    (hun : lookupA s.stocks_owned t = none) :
    s.trailing_stop t q pts pct = .error (.keyError, s) := by
  unfold Account.trailing_stop
  rw [if_pos (sub_nonneg.mpr hfee), hun]

/-- Witness for C10 at a concrete fresh account. -/
theorem c10_witness :
    (Account.init 1000 1).trailing_stop "B" 1 2 false =
      .error (.keyError, Account.init 1000 1) :=
  c10_trailing_stop_unheld_keyError (Account.init 1000 1) "B" 1 2 false
    (by norm_num [Account.init]) rfl

/-- C5 counterexample: along the reachable trace
[update {A:5} "A", buy "A" 0] the ticker "A" is priced at 5, yet a second
`buy "A" 0` exits with the unknown-ticker diagnostic — the merge divides by
`old_qty + quantity = 0` and the resulting ZeroDivisionError is swallowed by
the same bare except — and the state carried at the exit has the funds
already debited (999 to 998) and the transaction count already bumped
(1 to 2).  This refutes both the claim's "UnknownTicker exactly when the
ticker has no entry in latest_prices" and its "no account state is mutated
on failure" clauses. -/
theorem c5_counterexample :
    runOps (Account.init 1000 1) [Op.update [("A", 5)] "A", Op.buy "A" 0] =
      some accC5z ∧
    lookupA accC5z.latest_prices "A" = some 5 ∧
    accC5z.buy_stock "A" 0 = .error (.unknownTicker, accC5zExit) ∧
    accC5zExit.funds ≠ accC5z.funds ∧
    accC5zExit.transactions ≠ accC5z.transactions := by
  refine ⟨?_, rfl, ?_, by norm_num [accC5z, accC5zExit],
    by norm_num [accC5z, accC5zExit]⟩
  · norm_num [runOps, applyOp, Account.update, updateLoop, Account.buy_stock,
      Account.init, lookupA, setA, accC5z]
  · norm_num [Account.buy_stock, lookupA, setA, accC5z, accC5zExit]

/-- C5 (amended): `buy_stock` fails with `insufficientFunds` exactly when the
ticker is priced and the funds fall short of cost plus fee; it fails with the
unknown-ticker diagnostic exactly when the ticker has no latest price, or when
the ticker is priced and affordable but the merge into an existing holding
divides by `old_qty + quantity = 0` (a ZeroDivisionError swallowed by the same
bare except).  No failure touches the holdings; every failure carries either
the unchanged input state or — in the zero-divisor case only — the state with
the cost plus fee already debited and the transaction count already bumped.
Every success leaves the funds non-negative. -/
theorem c5_amended_buy_error_characterisation (s : Account) (t : String) (q : ℚ) :
    ((∃ s', s.buy_stock t q = .error (.insufficientFunds, s')) ↔
       ∃ p, lookupA s.latest_prices t = some p ∧
         s.funds < q * p + s.TRANSACTION_FEE) ∧
    ((∃ s', s.buy_stock t q = .error (.unknownTicker, s')) ↔
       (lookupA s.latest_prices t = none ∨
        ∃ p h₀, lookupA s.latest_prices t = some p ∧
          0 ≤ s.funds - (q * p + s.TRANSACTION_FEE) ∧
          lookupA s.stocks_owned t = some h₀ ∧ h₀.quantity + q = 0)) ∧
    (∀ e s', s.buy_stock t q = .error (e, s') →
      s'.stocks_owned = s.stocks_owned ∧
      (s' = s ∨
       (e = .unknownTicker ∧
        ∃ p, lookupA s.latest_prices t = some p ∧
          s' = { s with funds := s.funds - (q * p + s.TRANSACTION_FEE),
                        transactions := s.transactions + 1 }))) ∧
    (∀ s', s.buy_stock t q = .ok s' → 0 ≤ s'.funds) := by
  cases hl : lookupA s.latest_prices t with
  | none =>
    have hbuy : s.buy_stock t q = .error (.unknownTicker, s) := by
      simp only [Account.buy_stock, hl]
    refine ⟨⟨fun hex => ?_, fun hex => ?_⟩, ⟨fun _ => Or.inl rfl, fun _ => ⟨s, hbuy⟩⟩,
      fun e s' h => ?_, fun s' h => ?_⟩
    · obtain ⟨s', h⟩ := hex
      rw [hbuy] at h
      exact absurd h (by simp)
    · obtain ⟨p, hp, _⟩ := hex
      exact absurd hp (by simp)
    · rw [hbuy] at h
      simp only [Except.error.injEq, Prod.mk.injEq] at h
      exact ⟨by rw [← h.2], Or.inl h.2.symm⟩
    · rw [hbuy] at h
      exact absurd h (by simp)
  | some p =>
    by_cases hc : 0 ≤ s.funds - (q * p + s.TRANSACTION_FEE)
    · cases hlk : lookupA s.stocks_owned t with
      | none =>
        have hbuy := buy_stock_spec s t q p hl
        rw [if_pos hc, hlk] at hbuy
        dsimp only at hbuy
        refine ⟨⟨fun hex => ?_, fun hex => ?_⟩, ⟨fun hex => ?_, fun hor => ?_⟩,
          fun e s' h => ?_, fun s' h => ?_⟩
        · obtain ⟨s', h⟩ := hex
          rw [hbuy] at h
          exact absurd h (by simp)
        · obtain ⟨p', hp', hlt⟩ := hex
          injection hp' with hp'
          subst hp'
          linarith
        · obtain ⟨s', h⟩ := hex
          rw [hbuy] at h
          exact absurd h (by simp)
        · rcases hor with h1 | ⟨p', h', hp', hc', h3, hz'⟩
          · exact absurd h1 (by simp)
          · exact absurd h3 (by simp)
        · rw [hbuy] at h
          exact absurd h (by simp)
        · rw [hbuy] at h
          simp only [Except.ok.injEq] at h
          rw [← h]
          simpa using hc
      | some hold =>
        by_cases hz : hold.quantity + q = 0
        · have hbuy := buy_stock_spec s t q p hl
          rw [if_pos hc, hlk] at hbuy
          dsimp only at hbuy
          rw [if_pos hz] at hbuy
          refine ⟨⟨fun hex => ?_, fun hex => ?_⟩,
            ⟨fun _ => Or.inr ⟨p, hold, rfl, hc, rfl, hz⟩, fun _ => ⟨_, hbuy⟩⟩,
            fun e s' h => ?_, fun s' h => ?_⟩
          · obtain ⟨s', h⟩ := hex
            rw [hbuy] at h
            exact absurd h (by simp)
          · obtain ⟨p', hp', hlt⟩ := hex
            injection hp' with hp'
            subst hp'
            linarith
          · rw [hbuy] at h
            simp only [Except.error.injEq, Prod.mk.injEq] at h
            obtain ⟨he, hs⟩ := h
            exact ⟨by rw [← hs], Or.inr ⟨he.symm, p, rfl, hs.symm⟩⟩
          · rw [hbuy] at h
            exact absurd h (by simp)
        · have hbuy := buy_stock_spec s t q p hl
          rw [if_pos hc, hlk] at hbuy
          dsimp only at hbuy
          rw [if_neg hz] at hbuy
          refine ⟨⟨fun hex => ?_, fun hex => ?_⟩, ⟨fun hex => ?_, fun hor => ?_⟩,
            fun e s' h => ?_, fun s' h => ?_⟩
          · obtain ⟨s', h⟩ := hex
            rw [hbuy] at h
            exact absurd h (by simp)
          · obtain ⟨p', hp', hlt⟩ := hex
            injection hp' with hp'
            subst hp'
            linarith
          · obtain ⟨s', h⟩ := hex
            rw [hbuy] at h
            exact absurd h (by simp)
          · rcases hor with h1 | ⟨p', h', hp', hc', h3, hz'⟩
            · exact absurd h1 (by simp)
            · injection h3 with h3
              subst h3
              exact absurd hz' hz
          · rw [hbuy] at h
            exact absurd h (by simp)
          · rw [hbuy] at h
            simp only [Except.ok.injEq] at h
            rw [← h]
            simpa using hc
    · have hbuy : s.buy_stock t q = .error (.insufficientFunds, s) := by
        simp only [Account.buy_stock, hl, if_neg hc]
      refine ⟨⟨fun _ => ⟨p, rfl, by linarith [not_le.mp hc]⟩, fun _ => ⟨s, hbuy⟩⟩,
        ⟨fun hex => ?_, fun hor => ?_⟩, fun e s' h => ?_, fun s' h => ?_⟩
      · obtain ⟨s', h⟩ := hex
        rw [hbuy] at h
        exact absurd h (by simp)
      · rcases hor with h1 | ⟨p', h', hp', hc', h3, hz'⟩
        · exact absurd h1 (by simp)
        · injection hp' with hp'
          subst hp'
          exact absurd hc' hc
      · rw [hbuy] at h
        simp only [Except.error.injEq, Prod.mk.injEq] at h
        exact ⟨by rw [← h.2], Or.inl h.2.symm⟩
      · rw [hbuy] at h
        exact absurd h (by simp)

/-- Witness for C5 (amended): a concrete buy rejected for insufficient
funds. -/
theorem c5_witness : ∃ s', accC5.buy_stock "A" 2 = .error (.insufficientFunds, s') :=
  (c5_amended_buy_error_characterisation accC5 "A" 2).1.mpr
    ⟨5, rfl, by norm_num [accC5]⟩

theorem sellAllLoop_spec :
    ∀ (l : List (String × Holding)) (s : Account), s.stocks_owned = l →
      sellAllLoop l s = .ok { s with
        funds := s.funds +
          ((l.map (fun x => x.2.quantity * x.2.current_p)).sum -
            (l.length : ℚ) * s.TRANSACTION_FEE)
        transactions := s.transactions + l.length
        stocks_owned := [] } := by
  intro l
  induction l with
  | nil =>
    intro s hs
    obtain ⟨f, i, tr, fee, lp, op, so⟩ := s
    simp only at hs
    subst hs
    simp [sellAllLoop]
  | cons hd tl ih =>
    intro s hs
    obtain ⟨t, h⟩ := hd
    have hlk : lookupA s.stocks_owned t = some h := by
      rw [hs]; simp [lookupA]
    have her : eraseA s.stocks_owned t = tl := by
      rw [hs]; simp [eraseA]
    have hstep := ih
      { s with
          funds := s.funds + (h.quantity * h.current_p - s.TRANSACTION_FEE)
          transactions := s.transactions + 1
          stocks_owned := eraseA s.stocks_owned t }
      (by simpa using her)
    simp only [sellAllLoop, hlk, hstep]
    obtain ⟨f, i, tr, fee, lp, op, so⟩ := s
    simp only [Except.ok.injEq, Account.mk.injEq]
    refine ⟨?_, trivial, ?_, trivial, trivial, trivial, trivial⟩
    · simp only [List.map_cons, List.sum_cons, List.length_cons]
      push_cast
      ring
    · simp only [List.length_cons]
      omega

/-- C8: `sell_all` always succeeds with no funds-sufficiency check: it
credits `quantity * current_price - fee` for every held ticker (even if the
fees push the funds negative), increments the transaction count once per
ticker, and leaves the holdings empty, touching nothing else. -/
theorem c8_sell_all_liquidates (s : Account) :
    s.sell_all = .ok { s with
      funds := s.funds +
        ((s.stocks_owned.map (fun x => x.2.quantity * x.2.current_p)).sum -
          (s.stocks_owned.length : ℚ) * s.TRANSACTION_FEE)
      transactions := s.transactions + s.stocks_owned.length
      stocks_owned := [] } :=
  sellAllLoop_spec s.stocks_owned s rfl

/-- C9: every successful `report` is internally consistent — the net worth is
the funds plus the summed holding values (the quantity computed by `value`),
the profit is net worth minus the initial funds, and the profit percentage is
the profit divided by the initial funds.  The function itself is a pure read
of the account. -/
theorem c9_report_consistent (s : Account) (f : ReportFigures)
    (h : s.report = .ok f) :
    f.account_worth = s.funds + s.value ∧
    s.value = (s.stocks_owned.map (fun x => x.2.quantity * x.2.current_p)).sum ∧
    f.profit = f.account_worth - s.initial_funds ∧
    f.profit_percentage = f.profit / s.initial_funds := by
  unfold Account.report at h
  by_cases h0 : s.initial_funds = 0
  · rw [if_pos h0] at h
    exact absurd h (by simp)
  · rw [if_neg h0] at h
    cases hm : marketTotals s.original_prices s.latest_prices with
    | none => rw [hm] at h; exact absurd h (by simp)
    | some pr =>
      obtain ⟨tp, tr⟩ := pr
      rw [hm] at h
      dsimp only at h
      by_cases htp : tp = 0
      · rw [if_pos htp] at h
        exact absurd h (by simp)
      · rw [if_neg htp] at h
        simp only [Except.ok.injEq] at h
        subst h
        exact ⟨rfl, value_eq_sum s, rfl, rfl⟩

/-- Witness for C9 at a concrete account whose report succeeds. -/
theorem c9_witness :
    (ReportFigures.mk 100 0 0 0 0).account_worth = accC9.funds + accC9.value ∧
    accC9.value = (accC9.stocks_owned.map (fun x => x.2.quantity * x.2.current_p)).sum ∧
    (ReportFigures.mk 100 0 0 0 0).profit =
      (ReportFigures.mk 100 0 0 0 0).account_worth - accC9.initial_funds ∧
    (ReportFigures.mk 100 0 0 0 0).profit_percentage =
      (ReportFigures.mk 100 0 0 0 0).profit / accC9.initial_funds :=
  c9_report_consistent accC9 (ReportFigures.mk 100 0 0 0 0)
    (by simp [accC9, Account.report, Account.value, marketTotals, lookupA])

theorem sell_stock_of_none (s : Account) (t : String) (q : SQty)
    (hlk : lookupA s.stocks_owned t = none) :
    s.sell_stock t q = .error (.notOwned, s) := by
  unfold Account.sell_stock
  rw [hlk]

theorem sell_stock_spec (s : Account) (t : String) (q : SQty) (h₀ : Holding) (qty : ℚ)
    (hlk : lookupA s.stocks_owned t = some h₀)
    (hq : (match q with | SQty.all => h₀.quantity | SQty.num n => n) = qty) :
    s.sell_stock t q =
      if 0 ≤ h₀.quantity - qty then
        .ok { s with
          funds := s.funds + (qty * h₀.current_p - s.TRANSACTION_FEE)
          stocks_owned :=
            if h₀.quantity - qty = 0 then eraseA s.stocks_owned t
            else setA s.stocks_owned t { h₀ with quantity := h₀.quantity - qty }
          transactions := s.transactions + 1 }
      else .error (.oversell, s) := by
  subst hq
  unfold Account.sell_stock
  rw [hlk]

theorem update_trailing_stop_spec (s : Account) (t : String) (h₀ : Holding)
    (ord : TrailingStop) (hlk : lookupA s.stocks_owned t = some h₀)
    (hopt : h₀.options = some ord) :
    update_trailing_stop s t =
      if ord.highest > h₀.current_p then
        if h₀.current_p ≤
            (if ord.percentage then ord.highest - ord.highest * ord.points
             else ord.highest - ord.points) then
          match s.sell_stock t (.num ord.quantity) with
          | .error e => .error e
          | .ok s₁ =>
            match lookupA s₁.stocks_owned t with
            | some h₁ =>
              .ok { s₁ with
                      stocks_owned := setA s₁.stocks_owned t { h₁ with options := none } }
            | none => .ok s₁
        else .ok s
      else
        .ok { s with
                stocks_owned :=
                  setA s.stocks_owned t
                    { h₀ with options := some { ord with highest := h₀.current_p } } } := by
  unfold update_trailing_stop
  rw [hlk]
  dsimp only
  rw [hopt]

theorem sell_stock_entries (s : Account) (t : String) (q : SQty) (s' : Account)
    (hwf : Wf s) (hok : s.sell_stock t q = .ok s') :
    Wf s' ∧
    s'.latest_prices = s.latest_prices ∧
    s'.original_prices = s.original_prices ∧
    ∀ t' h', lookupA s'.stocks_owned t' = some h' →
      ∃ h₀, lookupA s.stocks_owned t' = some h₀ ∧
        h'.bought_p = h₀.bought_p ∧ h'.current_p = h₀.current_p ∧
        h'.options = h₀.options ∧ (0 < h₀.quantity → 0 < h'.quantity) := by
  cases hlk : lookupA s.stocks_owned t with
  | none =>
    rw [sell_stock_of_none s t q hlk] at hok
    exact absurd hok (by simp)
  | some h₀ =>
    rw [sell_stock_spec s t q h₀ _ hlk rfl] at hok
    split at hok
    · rename_i hge
      simp only [Except.ok.injEq] at hok
      subst hok
      refine ⟨?_, rfl, rfl, ?_⟩
      · unfold Wf
        dsimp only
        split
        · exact nodup_keys_eraseA hwf
        · exact nodup_keys_setA hwf
      · intro t' h' hl'
        dsimp only at hl'
        by_cases ht : t' = t
        · subst ht
          split at hl'
          · rw [lookupA_eraseA_self hwf] at hl'
            exact absurd hl' (by simp)
          · rename_i hne
            rw [lookupA_setA_self] at hl'
            injection hl' with hl'
            subst hl'
            exact ⟨h₀, hlk, rfl, rfl, rfl, fun _ => lt_of_le_of_ne hge (Ne.symm hne)⟩
        · split at hl'
          · rw [lookupA_eraseA_ne s.stocks_owned t t' ht] at hl'
            exact ⟨h', hl', rfl, rfl, rfl, fun hp => hp⟩
          · rw [lookupA_setA_ne s.stocks_owned t t' _ ht] at hl'
            exact ⟨h', hl', rfl, rfl, rfl, fun hp => hp⟩
    · exact absurd hok (by simp)

theorem update_trailing_stop_entries (s : Account) (t : String) (s' : Account)
    (hwf : Wf s) (hok : update_trailing_stop s t = .ok s') :
    Wf s' ∧
    s'.latest_prices = s.latest_prices ∧
    s'.original_prices = s.original_prices ∧
    ∀ t' h', lookupA s'.stocks_owned t' = some h' →
      ∃ h₀, lookupA s.stocks_owned t' = some h₀ ∧
        h'.bought_p = h₀.bought_p ∧ h'.current_p = h₀.current_p ∧
        (0 < h₀.quantity → 0 < h'.quantity) ∧
        (∀ ord', h'.options = some ord' →
          ∃ ord, h₀.options = some ord ∧ ord.highest ≤ ord'.highest) := by
  cases hlk : lookupA s.stocks_owned t with
  | none =>
    unfold update_trailing_stop at hok
    rw [hlk] at hok
    exact absurd hok (by simp)
  | some h₀ =>
    cases hopt : h₀.options with
    | none =>
      unfold update_trailing_stop at hok
      rw [hlk] at hok
      dsimp only at hok
      rw [hopt] at hok
      exact absurd hok (by simp)
    | some ord =>
      rw [update_trailing_stop_spec s t h₀ ord hlk hopt] at hok
      by_cases hrise : ord.highest > h₀.current_p
      · rw [if_pos hrise] at hok
        by_cases hthr : h₀.current_p ≤
            (if ord.percentage then ord.highest - ord.highest * ord.points
             else ord.highest - ord.points)
        · rw [if_pos hthr] at hok
          cases hsell : s.sell_stock t (.num ord.quantity) with
          | error e =>
            rw [hsell] at hok
            exact absurd hok (by simp)
          | ok s₁ =>
            rw [hsell] at hok
            dsimp only at hok
            obtain ⟨hwf₁, hlat₁, horig₁, hent₁⟩ := sell_stock_entries s t _ s₁ hwf hsell
            cases hlk₁ : lookupA s₁.stocks_owned t with
            | none =>
              rw [hlk₁] at hok
              simp only [Except.ok.injEq] at hok
              subst hok
              refine ⟨hwf₁, hlat₁, horig₁, fun t' h' hl' => ?_⟩
              obtain ⟨hb, hlb, e1, e2, e3, e4⟩ := hent₁ t' h' hl'
              exact ⟨hb, hlb, e1, e2, e4,
                fun ord' ho' => ⟨ord', by rw [← e3]; exact ho', le_refl _⟩⟩
            | some h₁ =>
              rw [hlk₁] at hok
              simp only [Except.ok.injEq] at hok
              subst hok
              refine ⟨nodup_keys_setA hwf₁, hlat₁, horig₁, fun t' h' hl' => ?_⟩
              by_cases ht : t' = t
              · subst ht
                rw [lookupA_setA_self] at hl'
                injection hl' with hl'
                subst hl'
                obtain ⟨hb, hlb, e1, e2, e3, e4⟩ := hent₁ t' h₁ hlk₁
                exact ⟨hb, hlb, e1, e2, e4, fun ord' ho' => absurd ho' (by simp)⟩
              · rw [lookupA_setA_ne s₁.stocks_owned t t' _ ht] at hl'
                obtain ⟨hb, hlb, e1, e2, e3, e4⟩ := hent₁ t' h' hl'
                exact ⟨hb, hlb, e1, e2, e4,
                  fun ord' ho' => ⟨ord', by rw [← e3]; exact ho', le_refl _⟩⟩
        · rw [if_neg hthr] at hok
          simp only [Except.ok.injEq] at hok
          subst hok
          exact ⟨hwf, rfl, rfl, fun t' h' hl' =>
            ⟨h', hl', rfl, rfl, fun hp => hp, fun ord' ho' => ⟨ord', ho', le_refl _⟩⟩⟩
      · rw [if_neg hrise] at hok
        simp only [Except.ok.injEq] at hok
        subst hok
        refine ⟨nodup_keys_setA hwf, rfl, rfl, fun t' h' hl' => ?_⟩
        by_cases ht : t' = t
        · subst ht
          rw [lookupA_setA_self] at hl'
          injection hl' with hl'
          subst hl'
          refine ⟨h₀, hlk, rfl, rfl, fun hp => hp, fun ord' ho' => ?_⟩
          simp only at ho'
          injection ho' with ho'
          subst ho'
          exact ⟨ord, hopt, by simpa using not_lt.mp hrise⟩
        · rw [lookupA_setA_ne s.stocks_owned t t' _ ht] at hl'
          exact ⟨h', hl', rfl, rfl, fun hp => hp, fun ord' ho' => ⟨ord', ho', le_refl _⟩⟩

theorem trailing_stop_entries (s : Account) (t : String) (q pts : ℚ) (pct : Bool)
    (s' : Account) (hwf : Wf s) (hok : s.trailing_stop t q pts pct = .ok s') :
    Wf s' ∧
    s'.latest_prices = s.latest_prices ∧
    s'.original_prices = s.original_prices ∧
    s'.funds = s.funds ∧
    ∀ t' h', lookupA s'.stocks_owned t' = some h' →
      ∃ h₀, lookupA s.stocks_owned t' = some h₀ ∧
        h'.quantity = h₀.quantity ∧ h'.bought_p = h₀.bought_p ∧
        h'.current_p = h₀.current_p := by
  unfold Account.trailing_stop at hok
  split at hok
  · cases hlk : lookupA s.stocks_owned t with
    | none =>
      rw [hlk] at hok
      exact absurd hok (by simp)
    | some h₀ =>
      rw [hlk] at hok
      dsimp only at hok
      split at hok
      · exact absurd hok (by simp)
      · split at hok
        · simp only [Except.ok.injEq] at hok
          subst hok
          refine ⟨nodup_keys_setA (nodup_keys_setA hwf), rfl, rfl, rfl,
            fun t' h' hl' => ?_⟩
          by_cases ht : t' = t
          · subst ht
            rw [lookupA_setA_self] at hl'
            injection hl' with hl'
            subst hl'
            exact ⟨h₀, hlk, rfl, rfl, rfl⟩
          · rw [lookupA_setA_ne _ t t' _ ht, lookupA_setA_ne _ t t' _ ht] at hl'
            exact ⟨h', hl', rfl, rfl, rfl⟩
        · simp only [Except.ok.injEq] at hok
          subst hok
          refine ⟨nodup_keys_setA hwf, rfl, rfl, rfl, fun t' h' hl' => ?_⟩
          by_cases ht : t' = t
          · subst ht
            rw [lookupA_setA_self] at hl'
            injection hl' with hl'
            subst hl'
            exact ⟨h₀, hlk, rfl, rfl, rfl⟩
          · rw [lookupA_setA_ne _ t t' _ ht] at hl'
            exact ⟨h', hl', rfl, rfl, rfl⟩
  · exact absurd hok (by simp)

theorem buy_stock_entries (s : Account) (t : String) (q : ℚ) (s' : Account)
    (hwf : Wf s) (hok : s.buy_stock t q = .ok s') :
    Wf s' ∧
    s'.latest_prices = s.latest_prices ∧
    s'.original_prices = s.original_prices ∧
    ∃ p, lookupA s.latest_prices t = some p ∧
      ∀ t' h', lookupA s'.stocks_owned t' = some h' →
        (t' ≠ t → lookupA s.stocks_owned t' = some h') ∧
        (t' = t →
          (lookupA s.stocks_owned t = none ∧
            h' = { quantity := q, bought_p := p, current_p := p, options := none }) ∨
          (∃ h₀, lookupA s.stocks_owned t = some h₀ ∧
            h'.quantity = h₀.quantity + q ∧ h'.current_p = h₀.current_p ∧
            h'.options = h₀.options)) := by
  cases hl : lookupA s.latest_prices t with
  | none =>
    unfold Account.buy_stock at hok
    rw [hl] at hok
    exact absurd hok (by simp)
  | some p =>
    rw [buy_stock_spec s t q p hl] at hok
    split at hok
    · cases hlk : lookupA s.stocks_owned t with
      | none =>
        rw [hlk] at hok
        dsimp only at hok
        simp only [Except.ok.injEq] at hok
        subst hok
        refine ⟨nodup_keys_setA hwf, rfl, rfl, p, rfl, fun t' h' hl' => ?_⟩
        by_cases ht : t' = t
        · subst ht
          rw [lookupA_setA_self] at hl'
          injection hl' with hl'
          subst hl'
          exact ⟨fun hne => absurd rfl hne, fun _ => Or.inl ⟨rfl, rfl⟩⟩
        · rw [lookupA_setA_ne _ t t' _ ht] at hl'
          exact ⟨fun _ => hl', fun he => absurd he ht⟩
      | some h₀ =>
        rw [hlk] at hok
        dsimp only at hok
        split at hok
        · exact absurd hok (by simp)
        · simp only [Except.ok.injEq] at hok
          subst hok
          refine ⟨nodup_keys_setA hwf, rfl, rfl, p, rfl, fun t' h' hl' => ?_⟩
          by_cases ht : t' = t
          · subst ht
            rw [lookupA_setA_self] at hl'
            injection hl' with hl'
            subst hl'
            exact ⟨fun hne => absurd rfl hne, fun _ => Or.inr ⟨h₀, rfl, rfl, rfl, rfl⟩⟩
          · rw [lookupA_setA_ne _ t t' _ ht] at hl'
            exact ⟨fun _ => hl', fun he => absurd he ht⟩
    · exact absurd hok (by simp)

theorem entryStep_of_eq {a b : Account} (h : a.stocks_owned = b.stocks_owned) :
    EntryStep a b := by
  intro t' h' hl'
  rw [← h] at hl'
  exact ⟨h', hl', rfl, fun hp => hp, fun ord' ho' => ⟨ord', ho', le_refl _⟩⟩

theorem entryStep_trans {a b c : Account} (h₁ : EntryStep a b) (h₂ : EntryStep b c) :
    EntryStep a c := by
  intro t' h' hl'
  obtain ⟨hm, hlm, e1, e2, e3⟩ := h₂ t' h' hl'
  obtain ⟨h₀, hl₀, f1, f2, f3⟩ := h₁ t' hm hlm
  refine ⟨h₀, hl₀, e1.trans f1, fun hp => e2 (f2 hp), fun ord' ho' => ?_⟩
  obtain ⟨ordm, hom, hle⟩ := e3 ord' ho'
  obtain ⟨ord₀, ho₀, hle₀⟩ := f3 ordm hom
  exact ⟨ord₀, ho₀, le_trans hle₀ hle⟩

theorem updateLoop_entries :
    ∀ (items : List (String × Holding)) (s s' : Account),
      Wf s → updateLoop items s = .ok s' →
      Wf s' ∧ s'.latest_prices = s.latest_prices ∧
      s'.original_prices = s.original_prices ∧ EntryStep s s' := by
  intro items
  induction items with
  | nil =>
    intro s s' hwf hok
    simp only [updateLoop, Except.ok.injEq] at hok
    subst hok
    exact ⟨hwf, rfl, rfl, entryStep_of_eq rfl⟩
  | cons hd tl ih =>
    intro s s' hwf hok
    obtain ⟨t, info⟩ := hd
    cases hlp : lookupA s.latest_prices t with
    | none =>
      simp only [updateLoop, hlp] at hok
      exact ih s s' hwf hok
    | some p =>
      simp only [updateLoop, hlp] at hok
      cases hlk : lookupA s.stocks_owned t with
      | none =>
        simp only [hlk] at hok
        exact absurd hok (by simp)
      | some h₀ =>
        simp only [hlk] at hok
        have hwf₁ :
            Wf { s with stocks_owned := setA s.stocks_owned t { h₀ with current_p := p } } :=
          nodup_keys_setA hwf
        have hstep₁ :
            EntryStep s
              { s with stocks_owned := setA s.stocks_owned t { h₀ with current_p := p } } := by
          intro t' h' hl'
          dsimp only at hl'
          by_cases ht : t' = t
          · subst ht
            rw [lookupA_setA_self] at hl'
            injection hl' with hl'
            subst hl'
            exact ⟨h₀, hlk, rfl, fun hp => hp, fun ord' ho' => ⟨ord', ho', le_refl _⟩⟩
          · rw [lookupA_setA_ne _ t t' _ ht] at hl'
            exact ⟨h', hl', rfl, fun hp => hp, fun ord' ho' => ⟨ord', ho', le_refl _⟩⟩
        split at hok
        · cases hup : update_trailing_stop
              { s with stocks_owned := setA s.stocks_owned t { h₀ with current_p := p } } t with
          | error e =>
            rw [hup] at hok
            exact absurd hok (by simp)
          | ok s₂ =>
            rw [hup] at hok
            dsimp only at hok
            obtain ⟨hwf₂, hlat₂, horig₂, hent₂⟩ :=
              update_trailing_stop_entries _ t s₂ hwf₁ hup
            obtain ⟨hwf₃, hlat₃, horig₃, hstep₃⟩ := ih s₂ s' hwf₂ hok
            refine ⟨hwf₃, ?_, ?_, ?_⟩
            · rw [hlat₃, hlat₂]
            · rw [horig₃, horig₂]
            · refine entryStep_trans (entryStep_trans hstep₁ ?_) hstep₃
              intro t' h' hl'
              obtain ⟨hb, hlb, e1, e2, e3, e4⟩ := hent₂ t' h' hl'
              exact ⟨hb, hlb, e1, e3, e4⟩
        · obtain ⟨hwf₃, hlat₃, horig₃, hstep₃⟩ := ih _ s' hwf₁ hok
          exact ⟨hwf₃, by rw [hlat₃], by rw [horig₃], entryStep_trans hstep₁ hstep₃⟩

theorem update_entries (s : Account) (lp : List (String × ℚ)) (tk : String)
    (s' : Account) (hwf : Wf s) (hok : s.update lp tk = .ok s') :
    Wf s' ∧
    s'.latest_prices = lp ∧
    (∀ t', t' ≠ tk → lookupA s'.original_prices t' = lookupA s.original_prices t') ∧
    (lookupA s'.original_prices tk =
      (lookupA s.original_prices tk).orElse (fun _ => lookupA lp tk)) ∧
    (∃ v, lookupA s'.original_prices tk = some v) ∧
    EntryStep s s' := by
  unfold Account.update at hok
  cases ho : lookupA s.original_prices tk with
  | some v =>
    simp only [ho] at hok
    have hwf₁ :
        Wf { s with original_prices := s.original_prices, latest_prices := lp } := hwf
    obtain ⟨hwf', hlat, horig, hstep⟩ := updateLoop_entries _ _ _ hwf₁ hok
    refine ⟨hwf', by rw [hlat], fun t' _ => by rw [horig], ?_, ⟨v, ?_⟩, hstep⟩
    · rw [horig]
      simp [ho, Option.orElse]
    · rw [horig]
      exact ho
  | none =>
    cases hlp : lookupA lp tk with
    | none =>
      simp only [ho, hlp] at hok
      exact absurd hok (by simp)
    | some p =>
      simp only [ho, hlp] at hok
      have hwf₁ :
          Wf { s with original_prices := setA s.original_prices tk p,
                      latest_prices := lp } := hwf
      obtain ⟨hwf', hlat, horig, hstep⟩ := updateLoop_entries _ _ _ hwf₁ hok
      refine ⟨hwf', by rw [hlat], fun t' ht' => ?_, ?_, ⟨p, ?_⟩, hstep⟩
      · rw [horig]
        exact lookupA_setA_ne _ tk t' _ ht'
      · rw [horig]
        simp [lookupA_setA_self, ho, Option.orElse]
      · rw [horig]
        exact lookupA_setA_self _ _ _

theorem runOps_ind {P : Account → Prop} {Q : Op → Prop}
    (hP : ∀ s op s', Q op → P s → applyOp s op = .ok s' → P s') :
    ∀ (ops : List Op) (s s' : Account), (∀ o ∈ ops, Q o) → P s →
      runOps s ops = some s' → P s' := by
  intro ops
  induction ops with
  | nil =>
    intro s s' _ hp hrun
    simp only [runOps, Option.some.injEq] at hrun
    subst hrun
    exact hp
  | cons op rest ih =>
    intro s s' hq hp hrun
    simp only [runOps] at hrun
    cases hap : applyOp s op with
    | error e =>
      rw [hap] at hrun
      exact absurd hrun (by simp)
    | ok s₁ =>
      rw [hap] at hrun
      dsimp only at hrun
      exact ih s₁ s' (fun o ho => hq o (List.mem_cons_of_mem _ ho))
        (hP s op s₁ (hq op (List.mem_cons_self _ _)) hp hap) hrun

theorem applyOp_wf (s : Account) (op : Op) (s' : Account) (hwf : Wf s)
    (hok : applyOp s op = .ok s') : Wf s' := by
  cases op with
  | update lp tk => exact (update_entries s lp tk s' hwf hok).1
  | buy t q => exact (buy_stock_entries s t q s' hwf hok).1
  | sell t q => exact (sell_stock_entries s t q s' hwf hok).1
  | tstop t q pts pct => exact (trailing_stop_entries s t q pts pct s' hwf hok).1
  | sellAll =>
    dsimp only [applyOp] at hok
    unfold Account.sell_all at hok
    rw [sellAllLoop_spec s.stocks_owned s rfl] at hok
    simp only [Except.ok.injEq] at hok
    subst hok
    simp [Wf]

/-- C7 counterexample: in the trace [update {A:5, B:6} "A", update {B:7} "B"]
the first update whose snapshot includes "B" carries price 6, yet
original_prices["B"] ends up 7 — it is recorded by the first update whose
ticker ARGUMENT is "B", not by the first update whose snapshot includes "B"
as the claim states. -/
theorem c7_counterexample :
    firstSnapshotOriginal
        [Op.update [("A", 5), ("B", 6)] "A", Op.update [("B", 7)] "B"] "B" = some 6 ∧
    (runOps (Account.init 100 1)
        [Op.update [("A", 5), ("B", 6)] "A", Op.update [("B", 7)] "B"]).map
      (fun s => lookupA s.original_prices "B") = some (some 7) ∧
    (6 : ℚ) ≠ 7 := by
  refine ⟨rfl, rfl, by norm_num⟩

/-- C7 (amended): original_prices[t] is written at most once — an existing
entry is never overwritten — and an absent entry ends up holding the price
carried, for ticker t, by the snapshot of the first update in the trace whose
ticker argument is t (not the first update whose snapshot merely includes t). -/
theorem c7_amended_original_once (s : Account) (ops : List Op) (s' : Account)
    (t : String) (hwf : Wf s) (hrun : runOps s ops = some s') :
    lookupA s'.original_prices t =
      (lookupA s.original_prices t).orElse (fun _ => firstArgOriginal ops t) := by
  revert s
  induction ops with
  | nil =>
    intro s hwf hrun
    simp only [runOps, Option.some.injEq] at hrun
    subst hrun
    cases ho : lookupA s.original_prices t <;>
      simp [firstArgOriginal, Option.orElse, ho]
  | cons op rest ih =>
    intro s hwf hrun
    simp only [runOps] at hrun
    cases hap : applyOp s op with
    | error e =>
      rw [hap] at hrun
      exact absurd hrun (by simp)
    | ok s₁ =>
      rw [hap] at hrun
      dsimp only at hrun
      have hwf₁ : Wf s₁ := applyOp_wf s op s₁ hwf hap
      have ihh := ih s₁ hwf₁ hrun
      cases op with
      | update lp tk =>
        obtain ⟨_, _, hne, htk, hsome, _⟩ := update_entries s lp tk s₁ hwf hap
        by_cases htt : tk = t
        · subst htt
          rw [ihh, htk]
          cases ho : lookupA s.original_prices tk with
          | some v => simp [Option.orElse, firstArgOriginal, ho]
          | none =>
            obtain ⟨v, hv⟩ := hsome
            rw [htk, ho] at hv
            simp only [Option.orElse] at hv
            simp [Option.orElse, firstArgOriginal, ho, hv]
        · rw [ihh, hne t (fun he => htt he.symm)]
          cases ho : lookupA s.original_prices t <;>
            simp [Option.orElse, firstArgOriginal, ho, htt]
      | buy t₀ q =>
        obtain ⟨_, _, horig, _⟩ := buy_stock_entries s t₀ q s₁ hwf hap
        rw [ihh, horig]
        cases ho : lookupA s.original_prices t <;>
          simp [Option.orElse, firstArgOriginal, ho]
      | sell t₀ q =>
        obtain ⟨_, _, horig, _⟩ := sell_stock_entries s t₀ q s₁ hwf hap
        rw [ihh, horig]
        cases ho : lookupA s.original_prices t <;>
          simp [Option.orElse, firstArgOriginal, ho]
      | tstop t₀ q pts pct =>
        obtain ⟨_, _, horig, _⟩ := trailing_stop_entries s t₀ q pts pct s₁ hwf hap
        rw [ihh, horig]
        cases ho : lookupA s.original_prices t <;>
          simp [Option.orElse, firstArgOriginal, ho]
      | sellAll =>
        dsimp only [applyOp] at hap
        unfold Account.sell_all at hap
        rw [sellAllLoop_spec s.stocks_owned s rfl] at hap
        simp only [Except.ok.injEq] at hap
        subst hap
        rw [ihh]
        cases ho : lookupA s.original_prices t <;>
          simp [Option.orElse, firstArgOriginal, ho]

/-- Witness for the amended C7 at a concrete one-update trace. -/
theorem c7_witness :
    lookupA
        ({ funds := 100, initial_funds := 100, transactions := 0, TRANSACTION_FEE := 1,
           latest_prices := [("A", 5)], original_prices := [("A", 5)],
           stocks_owned := [] } : Account).original_prices "A" =
      (lookupA (Account.init 100 1).original_prices "A").orElse
        (fun _ => firstArgOriginal [Op.update [("A", 5)] "A"] "A") :=
  c7_amended_original_once (Account.init 100 1) [Op.update [("A", 5)] "A"] _ "A"
    (by simp [Wf, Account.init]) rfl

/-- C6 counterexample: from a fresh account, the reachable trace
[update {A:5} "A", buy "A" 0] leaves a holding entry for "A" with quantity 0,
so an operation can leave a holding entry with quantity ≤ 0. -/
theorem c6_counterexample :
    ((runOps (Account.init 1000 1) [Op.update [("A", 5)] "A", Op.buy "A" 0]).bind
      (fun s => (lookupA s.stocks_owned "A").map Holding.quantity)) = some 0 := by
  simp [runOps, applyOp, Account.update, updateLoop, Account.buy_stock, Account.init,
        lookupA, setA]

/-- C6 (amended): in every account state reachable from a fresh account by
operations whose buys all use a strictly positive quantity, every holding
entry has a strictly positive quantity (a sell that exhausts a holding
removes the entry with its orders). -/
theorem c6_amended_positive_holdings (f fee : ℚ) (ops : List Op) (s' : Account)
    (hpos : ∀ o ∈ ops, posBuy o = true)
    (hrun : runOps (Account.init f fee) ops = some s') :
    ∀ t h, lookupA s'.stocks_owned t = some h → 0 < h.quantity := by
  have key : Wf s' ∧ PosInv s' := by
    refine @runOps_ind (fun s => Wf s ∧ PosInv s) (fun o => posBuy o = true)
      ?_ ops (Account.init f fee) s' hpos ⟨?_, ?_⟩ hrun
    · intro sᵢ op s₂ hq hP hok
      obtain ⟨hwf, hpi⟩ := hP
      cases op with
      | update lp tk =>
        obtain ⟨hwf₂, _, _, _, _, hstep⟩ := update_entries sᵢ lp tk s₂ hwf hok
        refine ⟨hwf₂, fun t h hl => ?_⟩
        obtain ⟨h₀, hl₀, _, hq0, _⟩ := hstep t h hl
        exact hq0 (hpi t h₀ hl₀)
      | buy t q =>
        have hqpos : 0 < q := by simpa [posBuy] using hq
        obtain ⟨hwf₂, _, _, p, hp, hent⟩ := buy_stock_entries sᵢ t q s₂ hwf hok
        refine ⟨hwf₂, fun t' h hl => ?_⟩
        obtain ⟨hne, he⟩ := hent t' h hl
        by_cases ht : t' = t
        · rcases he ht with ⟨_, rfl⟩ | ⟨h₀, hl₀, hq1, _, _⟩
          · simpa using hqpos
          · subst ht
            rw [hq1]
            have hpos₀ := hpi _ h₀ hl₀
            linarith
        · exact hpi t' h (hne ht)
      | sell t q =>
        obtain ⟨hwf₂, _, _, hent⟩ := sell_stock_entries sᵢ t q s₂ hwf hok
        refine ⟨hwf₂, fun t' h hl => ?_⟩
        obtain ⟨h₀, hl₀, _, _, _, hq0⟩ := hent t' h hl
        exact hq0 (hpi t' h₀ hl₀)
      | tstop t q pts pct =>
        obtain ⟨hwf₂, _, _, _, hent⟩ := trailing_stop_entries sᵢ t q pts pct s₂ hwf hok
        refine ⟨hwf₂, fun t' h hl => ?_⟩
        obtain ⟨h₀, hl₀, hq1, _, _⟩ := hent t' h hl
        rw [hq1]
        exact hpi t' h₀ hl₀
      | sellAll =>
        refine ⟨applyOp_wf sᵢ .sellAll s₂ hwf hok, fun t h hl => ?_⟩
        dsimp only [applyOp] at hok
        unfold Account.sell_all at hok
        rw [sellAllLoop_spec sᵢ.stocks_owned sᵢ rfl] at hok
        simp only [Except.ok.injEq] at hok
        subst hok
        simp [lookupA] at hl
    · simp [Wf, Account.init]
    · intro t h hl
      simp [Account.init, lookupA] at hl
  exact key.2

/-- Witness for the amended C6: one positive buy leaves a positive holding. -/
theorem c6_witness : (0 : ℚ) < 2 :=
  c6_amended_positive_holdings 1000 1 [Op.update [("A", 5)] "A", Op.buy "A" 2]
    { funds := 989, initial_funds := 1000, transactions := 1, TRANSACTION_FEE := 1,
      latest_prices := [("A", 5)], original_prices := [("A", 5)],
      stocks_owned := [("A", { quantity := 2, bought_p := 5, current_p := 5,
                               options := none })] }
    (by decide)
    (by simp [runOps, applyOp, Account.update, updateLoop, Account.buy_stock,
              Account.init, lookupA, setA]
        norm_num)
    "A" { quantity := 2, bought_p := 5, current_p := 5, options := none } rfl

/-- C2: a trailing-stop order's highest_price_seen watermark is monotonically
non-decreasing across any sequence of update calls, and each single
evaluation either raises it to the current price (exactly when the current
price is at least the watermark) or leaves it unchanged (when the order
survives the evaluation). -/
theorem c2_watermark_monotone :
    (∀ (s : Account) (ops : List Op) (s' : Account) (t : String)
        (h : Holding) (ord : TrailingStop) (h' : Holding) (ord' : TrailingStop),
      Wf s → (∀ o ∈ ops, o.isUpdate = true) → runOps s ops = some s' →
      lookupA s.stocks_owned t = some h → h.options = some ord →
      lookupA s'.stocks_owned t = some h' → h'.options = some ord' →
      ord.highest ≤ ord'.highest) ∧
    (∀ (s : Account) (t : String) (h : Holding) (ord : TrailingStop)
        (s' : Account) (h' : Holding) (ord' : TrailingStop),
      lookupA s.stocks_owned t = some h → h.options = some ord →
      update_trailing_stop s t = .ok s' →
      lookupA s'.stocks_owned t = some h' → h'.options = some ord' →
      ord'.highest = if ord.highest ≤ h.current_p then h.current_p else ord.highest) := by
  constructor
  · intro s ops s' t h ord h' ord' hwf hupd hrun hlk hopt hlk' hopt'
    have key : Wf s' ∧ EntryStep s s' := by
      refine @runOps_ind (fun b => Wf b ∧ EntryStep s b) (fun o => o.isUpdate = true)
        ?_ ops s s' hupd ⟨hwf, entryStep_of_eq rfl⟩ hrun
      intro sᵢ op s₂ hq hP hok
      cases op with
      | update lp tk =>
        obtain ⟨hwf₂, _, _, _, _, hstep⟩ := update_entries sᵢ lp tk s₂ hP.1 hok
        exact ⟨hwf₂, entryStep_trans hP.2 hstep⟩
      | buy t₀ q => simp [Op.isUpdate] at hq
      | sell t₀ q => simp [Op.isUpdate] at hq
      | tstop t₀ q pts pct => simp [Op.isUpdate] at hq
      | sellAll => simp [Op.isUpdate] at hq
    obtain ⟨h₀, hl₀, _, _, hordm⟩ := key.2 t h' hlk'
    obtain ⟨ord₀, ho₀, hle⟩ := hordm ord' hopt'
    rw [hlk] at hl₀
    injection hl₀ with he
    subst he
    rw [hopt] at ho₀
    injection ho₀ with he₂
    subst he₂
    exact hle
  · intro s t h ord s' h' ord' hlk hopt hok hlk' hopt'
    rw [update_trailing_stop_spec s t h ord hlk hopt] at hok
    by_cases hrise : ord.highest > h.current_p
    · rw [if_pos hrise] at hok
      by_cases hthr : h.current_p ≤
          (if ord.percentage then ord.highest - ord.highest * ord.points
           else ord.highest - ord.points)
      · rw [if_pos hthr] at hok
        cases hsell : s.sell_stock t (.num ord.quantity) with
        | error e =>
          rw [hsell] at hok
          exact absurd hok (by simp)
        | ok s₁ =>
          rw [hsell] at hok
          dsimp only at hok
          cases hlk₁ : lookupA s₁.stocks_owned t with
          | some h₁ =>
            rw [hlk₁] at hok
            simp only [Except.ok.injEq] at hok
            subst hok
            rw [lookupA_setA_self] at hlk'
            injection hlk' with he
            subst he
            exact absurd hopt' (by simp)
          | none =>
            rw [hlk₁] at hok
            simp only [Except.ok.injEq] at hok
            subst hok
            rw [hlk₁] at hlk'
            exact absurd hlk' (by simp)
      · rw [if_neg hthr] at hok
        simp only [Except.ok.injEq] at hok
        subst hok
        rw [hlk] at hlk'
        injection hlk' with he
        subst he
        rw [hopt] at hopt'
        injection hopt' with he₂
        subst he₂
        rw [if_neg (not_le.mpr hrise)]
    · rw [if_neg hrise] at hok
      simp only [Except.ok.injEq] at hok
      subst hok
      rw [lookupA_setA_self] at hlk'
      injection hlk' with he
      subst he
      simp only at hopt'
      injection hopt' with he₂
      subst he₂
      rw [if_pos (not_lt.mp hrise)]

/-- Witness for C2: one update raises the watermark from 50 to the new
current price 60, and a single evaluation at current price 60 rewrites the
watermark to 60. -/
theorem c2_witness :
    ((50 : ℚ) ≤ 60) ∧
    ((60 : ℚ) = if (50 : ℚ) ≤ (60 : ℚ) then (60 : ℚ) else (50 : ℚ)) := by
  constructor
  · exact c2_watermark_monotone.1
      (Account.mk 100 100 0 1 [("A", 50)] [("A", 50)]
        [("A", Holding.mk 5 50 50 (some (TrailingStop.mk false 2 50 5)))])
      [Op.update [("A", 60)] "A"]
      (Account.mk 100 100 0 1 [("A", 60)] [("A", 50)]
        [("A", Holding.mk 5 50 60 (some (TrailingStop.mk false 2 60 5)))])
      "A" (Holding.mk 5 50 50 (some (TrailingStop.mk false 2 50 5)))
      (TrailingStop.mk false 2 50 5)
      (Holding.mk 5 50 60 (some (TrailingStop.mk false 2 60 5)))
      (TrailingStop.mk false 2 60 5)
      (by simp [Wf]) (by decide)
      (by norm_num [runOps, applyOp, Account.update, updateLoop,
            update_trailing_stop, lookupA, setA])
      rfl rfl rfl rfl
  · exact c2_watermark_monotone.2
      (Account.mk 100 100 0 1 [("A", 50)] [("A", 50)]
        [("A", Holding.mk 5 50 60 (some (TrailingStop.mk false 2 50 5)))])
      "A" (Holding.mk 5 50 60 (some (TrailingStop.mk false 2 50 5)))
      (TrailingStop.mk false 2 50 5)
      (Account.mk 100 100 0 1 [("A", 50)] [("A", 50)]
        [("A", Holding.mk 5 50 60 (some (TrailingStop.mk false 2 60 5)))])
      (Holding.mk 5 50 60 (some (TrailingStop.mk false 2 60 5)))
      (TrailingStop.mk false 2 60 5)
      rfl rfl
      (by norm_num [update_trailing_stop, lookupA, setA])
      rfl rfl

theorem updateLoop_sync :
    ∀ (items : List (String × Holding)) (s s' : Account),
      Wf s →
      (∀ t p h, lookupA s.latest_prices t = some p →
        lookupA s.stocks_owned t = some h →
        (t ∈ items.map Prod.fst ∨ h.current_p = p)) →
      updateLoop items s = .ok s' →
      SyncInv s' := by
  intro items
  induction items with
  | nil =>
    intro s s' hwf hP hok
    simp only [updateLoop, Except.ok.injEq] at hok
    subst hok
    intro t p h hlp hlk
    rcases hP t p h hlp hlk with hmem | he
    · simp at hmem
    · exact he
  | cons hd tl ih =>
    intro s s' hwf hP hok
    obtain ⟨t₀, info⟩ := hd
    cases hlp : lookupA s.latest_prices t₀ with
    | none =>
      simp only [updateLoop, hlp] at hok
      refine ih s s' hwf ?_ hok
      intro t p h hlpt hlkt
      rcases hP t p h hlpt hlkt with hmem | he
      · rw [List.map_cons, List.mem_cons] at hmem
        rcases hmem with he₀ | hmem
        · exfalso
          have ht : t = t₀ := he₀
          rw [ht, hlp] at hlpt
          exact absurd hlpt (by simp)
        · exact Or.inl hmem
      · exact Or.inr he
    | some p₀ =>
      simp only [updateLoop, hlp] at hok
      cases hlk₀ : lookupA s.stocks_owned t₀ with
      | none =>
        simp only [hlk₀] at hok
        exact absurd hok (by simp)
      | some h₀ =>
        simp only [hlk₀] at hok
        have hwf₁ :
            Wf { s with stocks_owned := setA s.stocks_owned t₀ { h₀ with current_p := p₀ } } :=
          nodup_keys_setA hwf
        have hP₁ : ∀ t p h,
            lookupA s.latest_prices t = some p →
            lookupA (setA s.stocks_owned t₀ { h₀ with current_p := p₀ }) t = some h →
            (t ∈ tl.map Prod.fst ∨ h.current_p = p) := by
          intro t p h hlpt hlkt
          by_cases ht : t = t₀
          · subst ht
            rw [lookupA_setA_self] at hlkt
            injection hlkt with he
            subst he
            right
            rw [hlpt] at hlp
            injection hlp with he₂
            simpa using he₂.symm
          · rw [lookupA_setA_ne _ t₀ t _ ht] at hlkt
            rcases hP t p h hlpt hlkt with hmem | he
            · rw [List.map_cons, List.mem_cons] at hmem
              rcases hmem with he₀ | hmem
              · exact absurd he₀ ht
              · exact Or.inl hmem
            · exact Or.inr he
        split at hok
        · cases hup : update_trailing_stop
              { s with stocks_owned := setA s.stocks_owned t₀ { h₀ with current_p := p₀ } } t₀ with
          | error e =>
            rw [hup] at hok
            exact absurd hok (by simp)
          | ok s₂ =>
            rw [hup] at hok
            dsimp only at hok
            obtain ⟨hwf₂, hlat₂, _, hent₂⟩ := update_trailing_stop_entries _ t₀ s₂ hwf₁ hup
            refine ih s₂ s' hwf₂ ?_ hok
            intro t p h hlpt hlkt
            rw [hlat₂] at hlpt
            obtain ⟨hb, hlb, _, hcur, _, _⟩ := hent₂ t h hlkt
            rcases hP₁ t p hb hlpt hlb with hmem | he
            · exact Or.inl hmem
            · right
              rw [hcur]
              exact he
        · exact ih _ s' hwf₁ hP₁ hok

theorem update_sync (s : Account) (lp : List (String × ℚ)) (tk : String)
    (s' : Account) (hwf : Wf s) (hok : s.update lp tk = .ok s') : SyncInv s' := by
  unfold Account.update at hok
  cases ho : lookupA s.original_prices tk with
  | some v =>
    simp only [ho] at hok
    have hwf₁ :
        Wf { s with original_prices := s.original_prices, latest_prices := lp } := hwf
    exact updateLoop_sync _ _ _ hwf₁
      (fun t p h _ hlkt => Or.inl (mem_keys_of_lookupA hlkt)) hok
  | none =>
    cases hlp : lookupA lp tk with
    | none =>
      simp only [ho, hlp] at hok
      exact absurd hok (by simp)
    | some p =>
      simp only [ho, hlp] at hok
      have hwf₁ :
          Wf { s with original_prices := setA s.original_prices tk p,
                      latest_prices := lp } := hwf
      exact updateLoop_sync _ _ _ hwf₁
        (fun t p' h _ hlkt => Or.inl (mem_keys_of_lookupA hlkt)) hok

theorem runOps_sync (f fee : ℚ) (ops : List Op) (s' : Account)
    (hrun : runOps (Account.init f fee) ops = some s') : SyncInv s' := by
  refine (@runOps_ind (fun b => Wf b ∧ SyncInv b) (fun _ => True) ?_ ops
    (Account.init f fee) s' (fun _ _ => trivial) ⟨?_, ?_⟩ hrun).2
  · intro sᵢ op s₂ _ hP hok
    obtain ⟨hwf, hsync⟩ := hP
    cases op with
    | update lp tk =>
      exact ⟨(update_entries sᵢ lp tk s₂ hwf hok).1, update_sync sᵢ lp tk s₂ hwf hok⟩
    | buy t q =>
      obtain ⟨hwf₂, hlat, _, p₀, hp₀, hent⟩ := buy_stock_entries sᵢ t q s₂ hwf hok
      refine ⟨hwf₂, fun t' p h hlpt hlkt => ?_⟩
      rw [hlat] at hlpt
      obtain ⟨hne, he⟩ := hent t' h hlkt
      by_cases ht : t' = t
      · subst ht
        rcases he rfl with ⟨_, rfl⟩ | ⟨h₀, hl₀, _, hcur, _⟩
        · rw [hp₀] at hlpt
          injection hlpt
        · rw [hcur]
          exact hsync t' p h₀ hlpt hl₀
      · exact hsync t' p h hlpt (hne ht)
    | sell t q =>
      obtain ⟨hwf₂, hlat, _, hent⟩ := sell_stock_entries sᵢ t q s₂ hwf hok
      refine ⟨hwf₂, fun t' p h hlpt hlkt => ?_⟩
      rw [hlat] at hlpt
      obtain ⟨h₀, hl₀, _, hcur, _, _⟩ := hent t' h hlkt
      rw [hcur]
      exact hsync t' p h₀ hlpt hl₀
    | tstop t q pts pct =>
      obtain ⟨hwf₂, hlat, _, _, hent⟩ := trailing_stop_entries sᵢ t q pts pct s₂ hwf hok
      refine ⟨hwf₂, fun t' p h hlpt hlkt => ?_⟩
      rw [hlat] at hlpt
      obtain ⟨h₀, hl₀, _, _, hcur⟩ := hent t' h hlkt
      rw [hcur]
      exact hsync t' p h₀ hlpt hl₀
    | sellAll =>
      refine ⟨applyOp_wf sᵢ .sellAll s₂ hwf hok, fun t' p h hlpt hlkt => ?_⟩
      dsimp only [applyOp] at hok
      unfold Account.sell_all at hok
      rw [sellAllLoop_spec sᵢ.stocks_owned sᵢ rfl] at hok
      simp only [Except.ok.injEq] at hok
      subst hok
      simp [lookupA] at hlkt
  · simp [Wf, Account.init]
  · intro t p h hlpt hlkt
    simp [Account.init, lookupA] at hlkt

/-- C3: in any reachable account state, buying a positive quantity at the
latest price and then immediately selling the same quantity (the price table
unchanged in between) leaves the funds exactly two transaction fees below
their value before the buy. -/
theorem c3_buy_sell_roundtrip (f fee : ℚ) (ops : List Op) (s₀ s₁ s₂ : Account)
    (t : String) (q : ℚ) (hq : 0 < q)
    (hrun : runOps (Account.init f fee) ops = some s₀)
    (hbuy : s₀.buy_stock t q = .ok s₁)
    (hsell : s₁.sell_stock t (.num q) = .ok s₂) :
    s₂.funds = s₀.funds - 2 * s₀.TRANSACTION_FEE := by
  have hsync : SyncInv s₀ := runOps_sync f fee ops s₀ hrun
  cases hl : lookupA s₀.latest_prices t with
  | none =>
    unfold Account.buy_stock at hbuy
    rw [hl] at hbuy
    exact absurd hbuy (by simp)
  | some p =>
    rw [buy_stock_spec s₀ t q p hl] at hbuy
    by_cases hc : 0 ≤ s₀.funds - (q * p + s₀.TRANSACTION_FEE)
    · rw [if_pos hc] at hbuy
      cases hlk : lookupA s₀.stocks_owned t with
      | none =>
        rw [hlk] at hbuy
        dsimp only at hbuy
        simp only [Except.ok.injEq] at hbuy
        subst hbuy
        rw [sell_stock_spec _ t (.num q)
          { quantity := q, bought_p := p, current_p := p, options := none } q
          (lookupA_setA_self _ _ _) rfl] at hsell
        rw [if_pos (by simp)] at hsell
        simp only [Except.ok.injEq] at hsell
        subst hsell
        dsimp only
        ring
      | some h₀ =>
        have hcur : h₀.current_p = p := hsync t p h₀ hl hlk
        rw [hlk] at hbuy
        dsimp only at hbuy
        split at hbuy
        · exact absurd hbuy (by simp)
        · simp only [Except.ok.injEq] at hbuy
          subst hbuy
          rw [sell_stock_spec _ t (.num q) _ q (lookupA_setA_self _ _ _) rfl] at hsell
          split at hsell
          · simp only [Except.ok.injEq] at hsell
            subst hsell
            dsimp only
            rw [hcur]
            ring
          · exact absurd hsell (by simp)
    · rw [if_neg hc] at hbuy
      exact absurd hbuy (by simp)

/-- Witness for C3: buy 2 at 5 then sell 2 at 5, fee 1, funds drop by 2. -/
theorem c3_witness : (998 : ℚ) = 1000 - 2 * 1 := by
  have happ := c3_buy_sell_roundtrip 1000 1 [Op.update [("A", 5)] "A"]
    (Account.mk 1000 1000 0 1 [("A", 5)] [("A", 5)] [])
    (Account.mk 989 1000 1 1 [("A", 5)] [("A", 5)]
      [("A", Holding.mk 2 5 5 none)])
    (Account.mk 998 1000 2 1 [("A", 5)] [("A", 5)] [])
    "A" 2 (by norm_num) rfl
    (by norm_num [Account.buy_stock, lookupA, setA])
    (by norm_num [Account.sell_stock, lookupA, setA, eraseA])
  simpa using happ

theorem sell_stock_latest (s : Account) (t : String) (q : SQty) (s' : Account)
    (hok : s.sell_stock t q = .ok s') : s'.latest_prices = s.latest_prices := by
  cases hlk : lookupA s.stocks_owned t with
  | none =>
    rw [sell_stock_of_none s t q hlk] at hok
    exact absurd hok (by simp)
  | some h₀ =>
    rw [sell_stock_spec s t q h₀ _ hlk rfl] at hok
    split at hok
    · simp only [Except.ok.injEq] at hok
      subst hok
      rfl
    · exact absurd hok (by simp)

theorem update_trailing_stop_latest (s : Account) (t : String) (s' : Account)
    (hok : update_trailing_stop s t = .ok s') :
    s'.latest_prices = s.latest_prices := by
  cases hlk : lookupA s.stocks_owned t with
  | none =>
    unfold update_trailing_stop at hok
    rw [hlk] at hok
    exact absurd hok (by simp)
  | some h₀ =>
    cases hopt : h₀.options with
    | none =>
      unfold update_trailing_stop at hok
      rw [hlk] at hok
      dsimp only at hok
      rw [hopt] at hok
      exact absurd hok (by simp)
    | some ord =>
      rw [update_trailing_stop_spec s t h₀ ord hlk hopt] at hok
      by_cases hrise : ord.highest > h₀.current_p
      · rw [if_pos hrise] at hok
        by_cases hthr : h₀.current_p ≤
            (if ord.percentage then ord.highest - ord.highest * ord.points
             else ord.highest - ord.points)
        · rw [if_pos hthr] at hok
          cases hsell : s.sell_stock t (.num ord.quantity) with
          | error e =>
            rw [hsell] at hok
            exact absurd hok (by simp)
          | ok s₁ =>
            rw [hsell] at hok
            dsimp only at hok
            have hl₁ := sell_stock_latest s t _ s₁ hsell
            cases hlk₁ : lookupA s₁.stocks_owned t with
            | some h₁ =>
              rw [hlk₁] at hok
              simp only [Except.ok.injEq] at hok
              subst hok
              exact hl₁
            | none =>
              rw [hlk₁] at hok
              simp only [Except.ok.injEq] at hok
              subst hok
              exact hl₁
        · rw [if_neg hthr] at hok
          simp only [Except.ok.injEq] at hok
          subst hok
          rfl
      · rw [if_neg hrise] at hok
        simp only [Except.ok.injEq] at hok
        subst hok
        rfl

theorem updateLoop_single (t : String) (p : ℚ) :
    ∀ (items : List (String × Holding)) (s s' : Account),
      s.latest_prices = [(t, p)] →
      updateLoop items s = .ok s' →
      s'.latest_prices = s.latest_prices ∧
      (∀ h, lookupA s.stocks_owned t = some h → h.options = none →
        ∃ c, lookupA s'.stocks_owned t =
          some (Holding.mk h.quantity h.bought_p c none)) ∧
      (lookupA s.stocks_owned t = none → lookupA s'.stocks_owned t = none) := by
  intro items
  induction items with
  | nil =>
    intro s s' hlat hok
    simp only [updateLoop, Except.ok.injEq] at hok
    subst hok
    refine ⟨rfl, ?_, fun hn => hn⟩
    intro h hlk hopt
    obtain ⟨q₁, b₁, c₁, o₁⟩ := h
    simp only at hopt
    subst hopt
    exact ⟨c₁, hlk⟩
  | cons hd tl ih =>
    intro s s' hlat hok
    obtain ⟨k, info⟩ := hd
    by_cases hk : k = t
    · subst hk
      have hlt : lookupA s.latest_prices k = some p := by
        rw [hlat]; simp [lookupA]
      simp only [updateLoop, hlt] at hok
      cases hlk₁ : lookupA s.stocks_owned k with
      | none =>
        simp only [hlk₁] at hok
        exact absurd hok (by simp)
      | some h₁ =>
        simp only [hlk₁] at hok
        cases ho₁ : h₁.options with
        | some o =>
          rw [ho₁] at hok
          simp only [Option.isSome_some, if_true] at hok
          cases hup : update_trailing_stop
              { s with stocks_owned := setA s.stocks_owned k (Holding.mk h₁.quantity h₁.bought_p p (some o)) } k with
          | error e =>
            rw [hup] at hok
            exact absurd hok (by simp)
          | ok s₂ =>
            rw [hup] at hok
            dsimp only at hok
            have hlat₂ : s₂.latest_prices = [(k, p)] := by
              rw [update_trailing_stop_latest _ k s₂ hup]
              exact hlat
            obtain ⟨hl₃, _, _⟩ := ih s₂ s' hlat₂ hok
            refine ⟨by rw [hl₃, hlat₂, hlat], ?_, ?_⟩
            · intro h hlk hopt
              injection hlk with he
              subst he
              rw [ho₁] at hopt
              exact absurd hopt (by simp)
            · intro hn
              exact absurd hn (by simp)
        | none =>
          rw [ho₁] at hok
          simp only [Option.isSome_none, Bool.false_eq_true, if_false] at hok
          obtain ⟨hl₃, hp₃, hn₃⟩ := ih
            { s with stocks_owned := setA s.stocks_owned k (Holding.mk h₁.quantity h₁.bought_p p none) }
            s' hlat hok
          refine ⟨by rw [hl₃], ?_, ?_⟩
          · intro h hlk hopt
            injection hlk with he
            subst he
            obtain ⟨c, hc⟩ := hp₃ (Holding.mk h₁.quantity h₁.bought_p p none)
              (lookupA_setA_self _ _ _) rfl
            exact ⟨c, hc⟩
          · intro hn
            exact absurd hn (by simp)
    · have hlt : lookupA s.latest_prices k = none := by
        rw [hlat]; simp [lookupA, hk]
      simp only [updateLoop, hlt] at hok
      exact ih s s' hlat hok

theorem update_single (s s' : Account) (t : String) (p : ℚ)
    (hok : s.update [(t, p)] t = .ok s') :
    s'.latest_prices = [(t, p)] ∧
    (∀ h, lookupA s.stocks_owned t = some h → h.options = none →
      ∃ c, lookupA s'.stocks_owned t =
        some (Holding.mk h.quantity h.bought_p c none)) ∧
    (lookupA s.stocks_owned t = none → lookupA s'.stocks_owned t = none) := by
  unfold Account.update at hok
  cases ho : lookupA s.original_prices t with
  | some v =>
    simp only [ho] at hok
    obtain ⟨hl, hp, hn⟩ := updateLoop_single t p _ _ s' rfl hok
    exact ⟨by rw [hl], hp, hn⟩
  | none =>
    have hself : lookupA [(t, p)] t = some p := by simp [lookupA]
    simp only [ho, hself] at hok
    obtain ⟨hl, hp, hn⟩ := updateLoop_single t p _ _ s' rfl hok
    exact ⟨by rw [hl], hp, hn⟩

theorem fillOps_merge (t : String) :
    ∀ (fills : List (ℚ × ℚ)) (s s' : Account) (h : Holding),
      lookupA s.stocks_owned t = some h → h.options = none → 0 < h.quantity →
      (∀ qp ∈ fills, 0 < qp.1) →
      runOps s (fillOps t fills) = some s' →
      ∃ h', lookupA s'.stocks_owned t = some h' ∧ h'.options = none ∧
        h'.quantity = h.quantity + (fills.map Prod.fst).sum ∧
        h'.quantity * h'.bought_p =
          h.quantity * h.bought_p + (fills.map (fun x => x.1 * x.2)).sum ∧
        0 < h'.quantity := by
  intro fills
  induction fills with
  | nil =>
    intro s s' h hlk hopt hpos hall hrun
    have hfe : fillOps t ([] : List (ℚ × ℚ)) = [] := rfl
    rw [hfe] at hrun
    simp only [runOps, Option.some.injEq] at hrun
    subst hrun
    exact ⟨h, hlk, hopt, by simp, by simp, hpos⟩
  | cons qp rest ih =>
    obtain ⟨q, p⟩ := qp
    intro s s' h hlk hopt hpos hall hrun
    have hfe : fillOps t ((q, p) :: rest) =
        Op.update [(t, p)] t :: Op.buy t q :: fillOps t rest := rfl
    rw [hfe] at hrun
    simp only [runOps] at hrun
    cases hap : applyOp s (Op.update [(t, p)] t) with
    | error e =>
      rw [hap] at hrun
      exact absurd hrun (by simp)
    | ok s₁ =>
      rw [hap] at hrun
      dsimp only at hrun
      cases hbuy : applyOp s₁ (Op.buy t q) with
      | error e =>
        rw [hbuy] at hrun
        exact absurd hrun (by simp)
      | ok s₂ =>
        rw [hbuy] at hrun
        dsimp only at hrun
        dsimp only [applyOp] at hap hbuy
        obtain ⟨hlat₁, hsome₁, _⟩ := update_single s s₁ t p hap
        obtain ⟨c, hlk₁⟩ := hsome₁ h hlk hopt
        have hlp₁ : lookupA s₁.latest_prices t = some p := by
          rw [hlat₁]; simp [lookupA]
        rw [buy_stock_spec s₁ t q p hlp₁] at hbuy
        split at hbuy
        · rw [hlk₁] at hbuy
          dsimp only at hbuy
          have hq : 0 < q := hall (q, p) (by simp)
          have hqq : (0 : ℚ) < h.quantity + q := by linarith
          rw [if_neg (ne_of_gt hqq)] at hbuy
          simp only [Except.ok.injEq] at hbuy
          subst hbuy
          obtain ⟨h', hl', ho', hsum, hamt, hpos'⟩ :=
            ih _ s' _ (lookupA_setA_self _ _ _) rfl (by simpa using hqq)
              (fun x hm => hall x (List.mem_cons_of_mem _ hm)) hrun
          refine ⟨h', hl', ho', ?_, ?_, hpos'⟩
          · rw [hsum]
            dsimp only
            simp only [List.map_cons, List.sum_cons]
            ring
          · rw [hamt]
            dsimp only
            have hmul : (h.quantity + q) *
                ((h.quantity * h.bought_p + q * p) / (h.quantity + q)) =
                h.quantity * h.bought_p + q * p := by
              rw [mul_comm]
              exact div_mul_cancel₀ _ (ne_of_gt hqq)
            rw [hmul]
            simp only [List.map_cons, List.sum_cons]
            ring
        · exact absurd hbuy (by simp)

theorem fillOps_fresh (t : String) (q p : ℚ) (rest : List (ℚ × ℚ))
    (s s' : Account) (hfresh : lookupA s.stocks_owned t = none)
    (hpos : ∀ qp ∈ (q, p) :: rest, 0 < qp.1)
    (hrun : runOps s (fillOps t ((q, p) :: rest)) = some s') :
    ∃ h', lookupA s'.stocks_owned t = some h' ∧
      h'.quantity = (((q, p) :: rest).map Prod.fst).sum ∧
      h'.quantity * h'.bought_p = (((q, p) :: rest).map (fun x => x.1 * x.2)).sum ∧
      0 < h'.quantity := by
  have hfe : fillOps t ((q, p) :: rest) =
      Op.update [(t, p)] t :: Op.buy t q :: fillOps t rest := rfl
  rw [hfe] at hrun
  simp only [runOps] at hrun
  cases hap : applyOp s (Op.update [(t, p)] t) with
  | error e =>
    rw [hap] at hrun
    exact absurd hrun (by simp)
  | ok s₁ =>
    rw [hap] at hrun
    dsimp only at hrun
    cases hbuy : applyOp s₁ (Op.buy t q) with
    | error e =>
      rw [hbuy] at hrun
      exact absurd hrun (by simp)
    | ok s₂ =>
      rw [hbuy] at hrun
      dsimp only at hrun
      dsimp only [applyOp] at hap hbuy
      obtain ⟨hlat₁, _, hnone₁⟩ := update_single s s₁ t p hap
      have hlk₁ : lookupA s₁.stocks_owned t = none := hnone₁ hfresh
      have hlp₁ : lookupA s₁.latest_prices t = some p := by
        rw [hlat₁]; simp [lookupA]
      rw [buy_stock_spec s₁ t q p hlp₁] at hbuy
      split at hbuy
      · rw [hlk₁] at hbuy
        dsimp only at hbuy
        simp only [Except.ok.injEq] at hbuy
        subst hbuy
        have hq : 0 < q := hpos (q, p) (by simp)
        obtain ⟨h', hl', _, hsum, hamt, hpos'⟩ :=
          fillOps_merge t rest _ s' _ (lookupA_setA_self _ _ _) rfl (by simpa using hq)
            (fun x hm => hpos x (List.mem_cons_of_mem _ hm)) hrun
        refine ⟨h', hl', ?_, ?_, hpos'⟩
        · rw [hsum]
          dsimp only
          simp [List.map_cons, List.sum_cons]
        · rw [hamt]
          dsimp only
          simp [List.map_cons, List.sum_cons]
      · exact absurd hbuy (by simp)

/-- C4: starting with no holding of the ticker, a nonempty sequence of
positive-quantity fills (each published as the latest price and then bought)
leaves the holding's average bought price equal to the volume-weighted mean
of the fill prices, and any permutation of the fills yields the same average
bought price. -/
theorem c4_volume_weighted_average (s : Account) (t : String)
    (fills fills₂ : List (ℚ × ℚ)) (s₁ s₂ : Account)
    (hfresh : lookupA s.stocks_owned t = none)
    (hnil : fills ≠ [])
    (hpos : ∀ qp ∈ fills, 0 < qp.1)
    (hrun₁ : runOps s (fillOps t fills) = some s₁)
    (hperm : fills₂.Perm fills)
    (hrun₂ : runOps s (fillOps t fills₂) = some s₂) :
    ∃ h₁ h₂, lookupA s₁.stocks_owned t = some h₁ ∧
      lookupA s₂.stocks_owned t = some h₂ ∧
      h₁.bought_p =
        (fills.map (fun x => x.1 * x.2)).sum / (fills.map Prod.fst).sum ∧
      h₂.bought_p = h₁.bought_p := by
  have main : ∀ (l : List (ℚ × ℚ)) (s' : Account), l ≠ [] → (∀ qp ∈ l, 0 < qp.1) →
      runOps s (fillOps t l) = some s' →
      ∃ h', lookupA s'.stocks_owned t = some h' ∧
        h'.quantity = (l.map Prod.fst).sum ∧
        h'.quantity * h'.bought_p = (l.map (fun x => x.1 * x.2)).sum ∧
        0 < h'.quantity := by
    intro l s' hln hlp hlr
    cases l with
    | nil => exact absurd rfl hln
    | cons qp rest =>
      obtain ⟨q, p⟩ := qp
      exact fillOps_fresh t q p rest s s' hfresh hlp hlr
  have hnil₂ : fills₂ ≠ [] := by
    intro he
    subst he
    exact hnil hperm.symm.eq_nil
  have hpos₂ : ∀ qp ∈ fills₂, 0 < qp.1 := fun qp hm => hpos qp (hperm.subset hm)
  obtain ⟨h₁, hl₁, hq₁, ha₁, hp₁⟩ := main fills s₁ hnil hpos hrun₁
  obtain ⟨h₂, hl₂, hq₂, ha₂, hp₂⟩ := main fills₂ s₂ hnil₂ hpos₂ hrun₂
  have hsq : (fills₂.map Prod.fst).sum = (fills.map Prod.fst).sum :=
    (hperm.map Prod.fst).sum_eq
  have hsa : (fills₂.map (fun x => x.1 * x.2)).sum =
      (fills.map (fun x => x.1 * x.2)).sum :=
    (hperm.map _).sum_eq
  have hb₁ : h₁.bought_p =
      (fills.map (fun x => x.1 * x.2)).sum / (fills.map Prod.fst).sum := by
    rw [eq_div_iff (by rw [← hq₁]; exact ne_of_gt hp₁)]
    calc h₁.bought_p * (fills.map Prod.fst).sum
        = h₁.quantity * h₁.bought_p := by rw [← hq₁]; ring
      _ = (fills.map (fun x => x.1 * x.2)).sum := ha₁
  have hb₂ : h₂.bought_p =
      (fills.map (fun x => x.1 * x.2)).sum / (fills.map Prod.fst).sum := by
    rw [eq_div_iff (by rw [← hsq, ← hq₂]; exact ne_of_gt hp₂)]
    calc h₂.bought_p * (fills.map Prod.fst).sum
        = h₂.quantity * h₂.bought_p := by rw [← hsq, ← hq₂]; ring
      _ = (fills.map (fun x => x.1 * x.2)).sum := by rw [ha₂, hsa]
  exact ⟨h₁, h₂, hl₁, hl₂, hb₁, by rw [hb₂, hb₁]⟩

/-- Witness for C4: fills 1 share at 10 then 3 at 2, in both orders; both
runs end with average cost (1*10 + 3*2)/(1 + 3) = 4. -/
theorem c4_witness :
    ∃ h₁ h₂,
      lookupA (Account.mk 9982 10000 2 1 [("A", 2)] [("A", 10)]
        [("A", Holding.mk 4 4 2 none)]).stocks_owned "A" = some h₁ ∧
      lookupA (Account.mk 9982 10000 2 1 [("A", 10)] [("A", 2)]
        [("A", Holding.mk 4 4 10 none)]).stocks_owned "A" = some h₂ ∧
      h₁.bought_p =
        ((([(1, 10), (3, 2)] : List (ℚ × ℚ)).map (fun x => x.1 * x.2)).sum /
          (([(1, 10), (3, 2)] : List (ℚ × ℚ)).map Prod.fst).sum) ∧
      h₂.bought_p = h₁.bought_p :=
  c4_volume_weighted_average (Account.mk 10000 10000 0 1 [] [] []) "A"
    [(1, 10), (3, 2)] [(3, 2), (1, 10)]
    (Account.mk 9982 10000 2 1 [("A", 2)] [("A", 10)]
      [("A", Holding.mk 4 4 2 none)])
    (Account.mk 9982 10000 2 1 [("A", 10)] [("A", 2)]
      [("A", Holding.mk 4 4 10 none)])
    rfl (by simp)
    (by
      intro qp hm
      simp only [List.mem_cons, List.not_mem_nil, or_false] at hm
      rcases hm with rfl | rfl <;> norm_num)
    (by norm_num [fillOps, runOps, applyOp, Account.update, updateLoop,
          Account.buy_stock, lookupA, setA])
    (List.Perm.swap (1, 10) (3, 2) [])
    (by norm_num [fillOps, runOps, applyOp, Account.update, updateLoop,
          Account.buy_stock, lookupA, setA])

/-- C1 counterexample: reachable trace buy 5 at 50, place a trailing stop of
distance 0, then update at the same price 50.  The claim's trigger condition
holds — current_price 50 ≤ highest_price_seen 50 and 50 ≤ threshold 50 − 0 —
so the claim demands a sell of 5 shares (funds 749 + 250 − 1 = 998, order
removed); the code instead takes the watermark branch (its trigger requires
current strictly below the watermark) and leaves funds at 749, the holding
at quantity 5 and the order in place. -/
theorem c1_counterexample :
    (runOps (Account.init 1000 1)
      [Op.update [("A", 50)] "A", Op.buy "A" 5, Op.tstop "A" 5 0 false,
       Op.update [("A", 50)] "A"]).bind
      (fun s => (lookupA s.stocks_owned "A").map
        (fun h => (s.funds, h.quantity, h.current_p, h.options))) =
    some (749, 5, 50, some (TrailingStop.mk false 0 50 5)) := by
  norm_num [runOps, applyOp, Account.init, Account.update, updateLoop,
    Account.buy_stock, Account.sell_stock, Account.trailing_stop,
    update_trailing_stop, lookupA, setA, eraseA]

/-- C1 (amended): for a held ticker with an active trailing-stop order, when
an update makes current_price STRICTLY below highest_price_seen the
evaluation computes the threshold as highest − highest*distance (percentage)
or highest − distance (absolute); if current ≤ threshold and the order's
quantity does not exceed the held quantity, it sells exactly the order's
quantity through the normal sell path (same fee and funds effects, one
transaction) and removes the order from the holding (the holding itself is
gone when fully liquidated); if current is strictly below the watermark but
above the threshold nothing changes; if current EQUALS the watermark the
code takes the watermark branch, reassigning highest to the equal current
price, computing no threshold and selling nothing. -/
theorem c1_amended_trailing_stop_eval (s : Account) (t : String) (h : Holding)
    (ord : TrailingStop) (hlk : lookupA s.stocks_owned t = some h)
    (hopt : h.options = some ord) (hwf : Wf s) :
    (h.current_p < ord.highest →
      h.current_p ≤ (if ord.percentage then ord.highest - ord.highest * ord.points
                     else ord.highest - ord.points) →
      ord.quantity ≤ h.quantity →
      ∃ s₁, update_trailing_stop s t = .ok s₁ ∧
        s₁.funds = s.funds + (ord.quantity * h.current_p - s.TRANSACTION_FEE) ∧
        s₁.transactions = s.transactions + 1 ∧
        lookupA s₁.stocks_owned t =
          (if ord.quantity = h.quantity then none
           else some (Holding.mk (h.quantity - ord.quantity)
             h.bought_p h.current_p none))) ∧
    (h.current_p < ord.highest →
      (if ord.percentage then ord.highest - ord.highest * ord.points
       else ord.highest - ord.points) < h.current_p →
      update_trailing_stop s t = .ok s) ∧
    (h.current_p = ord.highest → update_trailing_stop s t = .ok s) := by
  refine ⟨?_, ?_, ?_⟩
  · intro hlt hthr hqle
    rw [update_trailing_stop_spec s t h ord hlk hopt, if_pos hlt, if_pos hthr,
      sell_stock_spec s t (.num ord.quantity) h ord.quantity hlk rfl,
      if_pos (sub_nonneg.mpr hqle)]
    by_cases heq : ord.quantity = h.quantity
    · have hsub : h.quantity - ord.quantity = 0 := by rw [heq]; ring
      rw [if_pos hsub]
      dsimp only
      rw [lookupA_eraseA_self hwf]
      refine ⟨_, rfl, rfl, rfl, ?_⟩
      rw [if_pos heq]
      exact lookupA_eraseA_self hwf
    · have hsub : h.quantity - ord.quantity ≠ 0 := by
        intro hc
        apply heq
        linarith
      rw [if_neg hsub]
      dsimp only
      rw [lookupA_setA_self]
      refine ⟨_, rfl, rfl, rfl, ?_⟩
      rw [if_neg heq]
      exact lookupA_setA_self _ _ _
  · intro hlt hgt
    rw [update_trailing_stop_spec s t h ord hlk hopt, if_pos hlt,
      if_neg (not_le.mpr hgt)]
  · intro heq
    rw [update_trailing_stop_spec s t h ord hlk hopt,
      if_neg (by rw [heq]; exact lt_irrefl _)]
    have hord : ({ ord with highest := h.current_p } : TrailingStop) = ord := by
      rw [heq]
    have hh : ({ h with options := some ord } : Holding) = h := by
      rw [← hopt]
    rw [hord, hh, setA_eq_of_lookupA hlk]

/-- Witness for the amended C1 at the spec's percentage example: watermark
60, distance 10 percent, current price 53 ≤ threshold 54, order quantity 5
equal to the held quantity: the sell executes and the holding disappears. -/
theorem c1_witness :
    ∃ s₁, update_trailing_stop
        (Account.mk 100 100 0 1 [("A", 53)] [("A", 50)]
          [("A", Holding.mk 5 50 53 (some (TrailingStop.mk true (1/10) 60 5)))])
        "A" = .ok s₁ ∧
      s₁.funds = (100 : ℚ) + ((5 : ℚ) * 53 - 1) ∧
      s₁.transactions = 0 + 1 ∧
      lookupA s₁.stocks_owned "A" =
        (if (5 : ℚ) = (5 : ℚ) then none
         else some (Holding.mk ((5 : ℚ) - 5) 50 53 none)) :=
  (c1_amended_trailing_stop_eval
    (Account.mk 100 100 0 1 [("A", 53)] [("A", 50)]
      [("A", Holding.mk 5 50 53 (some (TrailingStop.mk true (1/10) 60 5)))])
    "A" (Holding.mk 5 50 53 (some (TrailingStop.mk true (1/10) 60 5)))
    (TrailingStop.mk true (1/10) 60 5) rfl rfl (by simp [Wf])).1
    (by norm_num) (by norm_num) (by norm_num)
